import Mathlib

/-!
Shallow embedding of the tiny-bn bignum library (src/bn.h) in its default
build configuration: bn_word_size = 4, so limbs are 32-bit words
(bn_word = uint32_t, bn_dword = uint64_t) and bn_array_size = 128 / 4 = 32.

A `struct bn` is modelled as a `List ℕ` of 32 limbs, least significant limb
first; the operations themselves keep every limb below `BASE = 2 ^ 32`,
mirroring the uint32_t cells.  C procedures that write through an output
pointer are modelled as functions returning the written array; the library
has no global state, so this captures the whole observable effect of a call.
`bn_assert` failures, out-of-bounds array accesses (undefined behaviour) and
loops that exceed their fuel are modelled with the `BnErr` error type.
The fuel constants are modelling artifacts: the proofs show they are never
exhausted on the corresponding C loops except where the C loop really does
not terminate.
-/

/-- BnErr: how a modelled C call can fail to produce a value.  `abort` is a
failed bn_assert, `ub` an out-of-bounds array access (undefined behaviour in
the C source), `fuel` a loop that ran past the model's fuel bound. -/
inductive BnErr where
  | abort : BnErr
  | ub : BnErr
  | fuel : BnErr
deriving DecidableEq

/-- BASE is the number base of one limb: 2 to the word width in bits. -/
def BASE : ℕ := 2 ^ 32

/-- numWords is bn_array_size for the default configuration. -/
def numWords : ℕ := 32

/-- CAP is BASE ^ capacity: one past the largest representable value. -/
def CAP : ℕ := BASE ^ numWords

/-- bnValue is the semantic value of a limb array: Sigma limbs[i] * BASE^i. -/
def bnValue (l : List ℕ) : ℕ := l.foldr (fun w acc => w + BASE * acc) 0

/-- bn_wf: the data-model invariant of a struct bn — exactly numWords limbs,
each limb a uint32_t value. -/
def bn_wf (l : List ℕ) : Prop := l.length = numWords ∧ ∀ x ∈ l, x < BASE

instance (l : List ℕ) : Decidable (bn_wf l) := by
  unfold bn_wf; infer_instance

/-- bignum_init writes zero to every limb; as a value it is the zero array. -/
def bignum_init : List ℕ := List.replicate numWords 0

/-- bignum_from_int for bn_word_size = 4: limb 0 receives the low 32 bits of
the 64-bit argument (uint64 to uint32 conversion), limb 1 the high 32 bits,
all other limbs stay zero from bignum_init. -/
def bignum_from_int (i : ℕ) : List ℕ :=
  (i % BASE) :: (i / BASE % BASE) :: List.replicate (numWords - 2) 0

/-- bignum_to_int for bn_word_size = 4: `ret` starts at 0 and accumulates only
`n->array[0]`.  The C return type is int (32-bit signed); the uint32 to int
conversion is modelled with the usual two's-complement wrap. -/
def bignum_to_int (l : List ℕ) : ℤ :=
  let r := l.getD 0 0 % BASE
  if r < 2 ^ 31 then (r : ℤ) else (r : ℤ) - (BASE : ℤ)

/-- bn__add_loop mirrors the bignum_add loop: tmp is the 64-bit sum of the two
limbs and the carry, the stored limb is tmp masked to 32 bits, and the next
carry is set when tmp exceeded bn_max_val.  The loop runs over all numWords
limb pairs; the final carry is discarded. -/
def bn__add_loop : List ℕ → List ℕ → ℕ → List ℕ
  | x :: xs, y :: ys, carry =>
    let tmp := x + y + carry
    (tmp % BASE) :: bn__add_loop xs ys (if tmp > BASE - 1 then 1 else 0)
  | _, _, _ => []

/-- bignum_add: limb-wise addition with carry propagation, no overflow output. -/
def bignum_add (a b : List ℕ) : List ℕ := bn__add_loop a b 0

/-- bn__sub_loop mirrors the bignum_sub loop: tmp1 = a limb + number base,
tmp2 = b limb + borrow, res their (64-bit, non-negative) difference; the
stored limb is res modulo the base and the next borrow is set when res stayed
at or below bn_max_val. -/
def bn__sub_loop : List ℕ → List ℕ → ℕ → List ℕ
  | x :: xs, y :: ys, borrow =>
    let tmp1 := x + BASE
    let tmp2 := y + borrow
    let res := tmp1 - tmp2
    (res % BASE) :: bn__sub_loop xs ys (if res ≤ BASE - 1 then 1 else 0)
  | _, _, _ => []

/-- bignum_sub: limb-wise subtraction with borrow propagation. -/
def bignum_sub (a b : List ℕ) : List ℕ := bn__sub_loop a b 0

/-- bn__cmp_loop compares limbs most-significant first, so it receives the
reversed limb arrays; it returns 1, -1 or 0 like the C function. -/
def bn__cmp_loop : List ℕ → List ℕ → ℤ
  | x :: xs, y :: ys =>
    if x > y then 1 else if x < y then -1 else bn__cmp_loop xs ys
  | _, _ => 0

/-- bignum_cmp scans from the last array element (most significant limb) down. -/
def bignum_cmp (a b : List ℕ) : ℤ := bn__cmp_loop a.reverse b.reverse

/-- bignum_is_zero: true when every limb is zero. -/
def bignum_is_zero (l : List ℕ) : Bool := l.all (fun x => x == 0)

/-- bignum_or: limb-wise bitwise or. -/
def bignum_or (a b : List ℕ) : List ℕ := List.zipWith (fun x y => x ||| y) a b

/-- bn__lshift_word moves limbs up by nwords positions and zero-fills the
vacated low limbs, exactly the two loops of the C function (on a numWords
array): new[i] = old[i - nwords] for i ≥ nwords, 0 below. -/
def bn__lshift_word (l : List ℕ) (nwords : ℕ) : List ℕ :=
  List.replicate (min nwords numWords) 0 ++ l.take (numWords - nwords)

/-- bn__rshift_word: for nwords ≥ numWords the whole array is zeroed,
otherwise limbs move down by nwords and the top limbs are zero-filled. -/
def bn__rshift_word (l : List ℕ) (nwords : ℕ) : List ℕ :=
  if numWords ≤ nwords then List.replicate numWords 0
  else l.drop nwords ++ List.replicate nwords 0

/-- bn__lshift_bits_go is the sub-word left-shift loop: each new limb combines
its own limb shifted up by r bits (wrapped to 32 bits) with the top r bits of
the limb below (`prev`); the C loop runs top-down so every read sees the old
limb values, which this recursion reproduces with the running `prev`. -/
def bn__lshift_bits_go : List ℕ → ℕ → ℕ → List ℕ
  | [], _, _ => []
  | x :: xs, prev, r =>
    (((x <<< r) % BASE) ||| (prev >>> (32 - r))) :: bn__lshift_bits_go xs x r

/-- bn__lshift_one_bit is the C helper with the fixed shift of one bit, the
r = 1 instance of the sub-word left-shift loop pattern. -/
def bn__lshift_one_bit (l : List ℕ) : List ℕ := bn__lshift_bits_go l 0 1

/-- bn__rshift_bits is the sub-word right-shift loop: each limb is shifted
down r bits and receives the low r bits of the limb above; the last limb is
only shifted.  The C loop runs bottom-up, reading the not yet modified upper
neighbour, which this recursion on the list tail reproduces. -/
def bn__rshift_bits : List ℕ → ℕ → List ℕ
  | [], _ => []
  | [x], r => [x >>> r]
  | x :: y :: xs, r =>
    ((x >>> r) ||| ((y <<< (32 - r)) % BASE)) :: bn__rshift_bits (y :: xs) r

/-- bn__rshift_one_bit is the C helper with the fixed shift of one bit, the
r = 1 instance of the sub-word right-shift loop pattern. -/
def bn__rshift_one_bit (l : List ℕ) : List ℕ := bn__rshift_bits l 1

/-- bignum_lshift: copy a, shift by whole words, then by the remaining bits. -/
def bignum_lshift (a : List ℕ) (nbits : ℕ) : List ℕ :=
  let nwords := nbits / 32
  let b := if nwords ≠ 0 then bn__lshift_word a nwords else a
  let r := nbits - nwords * 32
  if r ≠ 0 then bn__lshift_bits_go b 0 r else b

/-- bignum_rshift: copy a, shift by whole words, then by the remaining bits. -/
def bignum_rshift (a : List ℕ) (nbits : ℕ) : List ℕ :=
  let nwords := nbits / 32
  let b := if nwords ≠ 0 then bn__rshift_word a nwords else a
  let r := nbits - nwords * 32
  if r ≠ 0 then bn__rshift_bits b r else b

/-- bignum_inc: add one, stopping at the first limb that does not wrap to 0. -/
def bignum_inc : List ℕ → List ℕ
  | [] => []
  | x :: xs =>
    let res := (x + 1) % BASE
    if res > x then res :: xs else res :: bignum_inc xs

/-- bignum_dec: subtract one, stopping at the first limb that does not wrap
up to the maximum value. -/
def bignum_dec : List ℕ → List ℕ
  | [] => []
  | x :: xs =>
    let res := (x + BASE - 1) % BASE
    if res ≤ x then res :: xs else res :: bignum_dec xs

/-- bignum_mul: schoolbook product.  For every limb pair with i + j inside the
array, the 64-bit partial product is loaded with bignum_from_int, moved up by
i + j whole limbs and added into the row; each row is added into the output,
which starts from bignum_init. -/
def bignum_mul (a b : List ℕ) : List ℕ :=
  (List.range numWords).foldl (fun c i =>
    let row := (List.range numWords).foldl (fun row j =>
      if i + j < numWords then
        bignum_add (bn__lshift_word (bignum_from_int (a.getD i 0 * b.getD j 0)) (i + j)) row
      else row) bignum_init
    bignum_add c row) bignum_init

/-- bignum_mul with the output argument aliasing operand a.  The first
statement of the C function, bignum_init on the output, then zeroes a, and
every later read a->array[i] goes through the shared, already updated cell
(`s` below); the original limbs of a are never read. -/
def bignum_mul_alias (_a b : List ℕ) : List ℕ :=
  (List.range numWords).foldl (fun s i =>
    let row := (List.range numWords).foldl (fun row j =>
      if i + j < numWords then
        bignum_add (bn__lshift_word (bignum_from_int (s.getD i 0 * b.getD j 0)) (i + j)) row
      else row) bignum_init
    bignum_add s row) bignum_init

/-- bn__half_max is the C constant half_max = 1 + bn_max_val / 2 = 2^31. -/
def bn__half_max : ℕ := 1 + (BASE - 1) / 2

/-- bn__div_shift_loop is the first bignum_div loop: while denom ≤ a, stop
with overflow = true if denom's top limb has reached half_max, otherwise
shift current and denom one bit up and continue. -/
def bn__div_shift_loop : ℕ → List ℕ → List ℕ → List ℕ →
    Except BnErr (List ℕ × List ℕ × Bool)
  | 0, _, _, _ => .error .fuel
  | fuel + 1, a, denom, current =>
    if bignum_cmp denom a ≠ 1 then
      if denom.getD (numWords - 1) 0 ≥ bn__half_max then .ok (denom, current, true)
      else bn__div_shift_loop fuel a (bn__lshift_one_bit denom) (bn__lshift_one_bit current)
    else .ok (denom, current, false)

/-- bn__div_sub_loop is the second bignum_div loop: while current is nonzero,
subtract denom from the running dividend and or current into the answer
whenever the dividend is at least denom, then shift current and denom down. -/
def bn__div_sub_loop : ℕ → List ℕ → List ℕ → List ℕ → List ℕ →
    Except BnErr (List ℕ)
  | 0, _, _, _, _ => .error .fuel
  | fuel + 1, tmp, denom, current, answer =>
    if bignum_is_zero current then .ok answer
    else if bignum_cmp tmp denom ≠ -1 then
      bn__div_sub_loop fuel (bignum_sub tmp denom)
        (bn__rshift_one_bit denom) (bn__rshift_one_bit current)
        (bignum_or answer current)
    else
      bn__div_sub_loop fuel tmp
        (bn__rshift_one_bit denom) (bn__rshift_one_bit current) answer

/-- bn__div_fuel bounds both bignum_div loops.  Phase one runs at most 1025
times for a non-zero divisor (the divisor value at least doubles while staying
under CAP / 2) and phase two at most 1025 times (current halves), so 1100 is
never exhausted — except that with a zero divisor the first loop never exits. -/
def bn__div_fuel : ℕ := 1100

/-- bignum_div: denom starts at b and current at one; both are shifted up
until denom would pass a (or its top limb reaches half_max, the overflow
case, in which case the back-off shift is skipped), then trial subtraction
accumulates the quotient bits. -/
def bignum_div (a b : List ℕ) : Except BnErr (List ℕ) := do
  let r ← bn__div_shift_loop bn__div_fuel a b (bignum_from_int 1)
  let denom := if !r.2.2 then bn__rshift_one_bit r.1 else r.1
  let current := if !r.2.2 then bn__rshift_one_bit r.2.1 else r.2.1
  bn__div_sub_loop bn__div_fuel a denom current bignum_init

/-- bignum_divmod: the quotient c comes from bignum_div, the remainder d is
a - c * b computed with bignum_mul and bignum_sub. -/
def bignum_divmod (a b : List ℕ) : Except BnErr (List ℕ × List ℕ) := do
  let c ← bignum_div a b
  let tmp := bignum_mul c b
  .ok (c, bignum_sub a tmp)

/-- bignum_mod: bignum_divmod with the quotient thrown away. -/
def bignum_mod (a b : List ℕ) : Except BnErr (List ℕ) := do
  let r ← bignum_divmod a b
  .ok r.2

/-- bn__pow_loop is the bignum_pow summing loop: while bcopy is nonzero,
multiply the accumulator by a and decrement bcopy. -/
def bn__pow_loop (a : List ℕ) : ℕ → List ℕ → List ℕ → Except BnErr (List ℕ)
  | 0, _, _ => .error .fuel
  | fuel + 1, bcopy, tmp =>
    if bignum_is_zero bcopy then .ok tmp
    else bn__pow_loop a fuel (bignum_dec bcopy) (bignum_mul tmp a)

/-- bignum_pow: the output is zero-initialised and compared with b; a zero
exponent yields bignum_inc of the zero array (one) without entering the loop,
otherwise the loop starts from bcopy = b - 1 and accumulator a. -/
def bignum_pow (fuel : ℕ) (a b : List ℕ) : Except BnErr (List ℕ) :=
  if bignum_cmp b bignum_init = 0 then .ok (bignum_inc bignum_init)
  else bn__pow_loop a fuel (bignum_dec b) a

/-- hexchar__to_int on an ASCII code: letters a..f map to 10..15, everything
else is treated as a decimal digit (int arithmetic, so possibly negative). -/
def hexchar__to_int (a : ℕ) : ℤ :=
  if 97 ≤ a ∧ a ≤ 102 then (a : ℤ) - 97 + 10 else (a : ℤ) - 48

/-- bn__parse_word reads 2 * bn_word_size = 8 hex characters starting at
string index i, most significant first, accumulating tmp = 16 * tmp + digit
in a uint32 limb (int converted to uint32, wrapping). -/
def bn__parse_word (str : List ℕ) (i : ℕ) : ℕ :=
  (List.range 8).foldl
    (fun tmp q => ((16 * (tmp : ℤ) + hexchar__to_int (str.getD (i + q) 0)).emod (BASE : ℤ)).toNat) 0

/-- bn__from_string_loop: cnt iterations remain; the current string index is
i (moving down by 8 each step) and the current limb index is j (moving up).
A store to a limb index outside the array is undefined behaviour. -/
def bn__from_string_loop (str : List ℕ) : ℕ → ℕ → ℕ → List ℕ → Except BnErr (List ℕ)
  | 0, _, _, arr => .ok arr
  | cnt + 1, i, j, arr =>
    let tmp := bn__parse_word str i
    if j < numWords then bn__from_string_loop str cnt (i - 8) (j + 1) (arr.set j tmp)
    else .error .ub

/-- bignum_from_string: after the bn_assert checks on nbytes (positive, even,
a multiple of 2 * bn_word_size = 8), parse the string 8 hex characters at a
time from the end into successive limbs of a zero-initialised array. -/
def bignum_from_string (str : List ℕ) (nbytes : ℕ) : Except BnErr (List ℕ) :=
  if nbytes = 0 then .error .abort
  else if nbytes % 2 ≠ 0 then .error .abort
  else if nbytes % 8 ≠ 0 then .error .abort
  else bn__from_string_loop str (nbytes / 8) (nbytes - 8) 0 bignum_init

/-- bn__hexlo renders the low nibble of a byte; note the C slip: a digit value
q ≥ 10 becomes q + the code of the letter a, not the letter a + (q - 10). -/
def bn__hexlo (b : ℕ) : ℕ :=
  let q := b % 256 % 16
  if q ≥ 10 then q + 97 else q + 48

/-- bn__hexhi renders the high nibble of a byte, with the same slip as
bn__hexlo for digit values at least 10. -/
def bn__hexhi (b : ℕ) : ℕ :=
  let q := b % 256 / 16
  if q ≥ 10 then q + 97 else q + 48

/-- bn__write_cell models a store into the caller's character buffer; a store
past the declared buffer is undefined behaviour. -/
def bn__write_cell (str : List ℕ) (i c : ℕ) : Except BnErr (List ℕ) :=
  if i < str.length then .ok (str.set i c) else .error .ub

/-- bn__to_string_loop renders limb jp - 1 at string index i and steps down;
for bn_word_size = 4 the C code writes only six characters per limb — the
byte at bits 24..31 is never rendered and cells i + 6 and i + 7 keep whatever
the buffer already held — and then advances i by 8. -/
def bn__to_string_loop (n : List ℕ) : ℕ → ℕ → ℕ → List ℕ → Except BnErr (List ℕ)
  | 0, _, _, str => .ok str
  | jp + 1, i, nbytes, str =>
    if nbytes > i + 1 then do
      let w := n.getD jp 0
      let str ← bn__write_cell str i (bn__hexhi (w >>> 16))
      let str ← bn__write_cell str (i + 1) (bn__hexlo (w >>> 16))
      let str ← bn__write_cell str (i + 2) (bn__hexhi (w >>> 8))
      let str ← bn__write_cell str (i + 3) (bn__hexlo (w >>> 8))
      let str ← bn__write_cell str (i + 4) (bn__hexhi w)
      let str ← bn__write_cell str (i + 5) (bn__hexlo w)
      bn__to_string_loop n jp (i + 8) nbytes str
    else .ok str

/-- bn__skip_zeros models the leading-zero scan `while (str[j] == the zero
character) j += 1`; a read past the buffer is undefined behaviour.  The fuel
is consumed one unit per step; a fuel of buffer length + 1 cannot run out
before the scan stops or walks off the buffer. -/
def bn__skip_zeros (str : List ℕ) : ℕ → ℕ → Except BnErr ℕ
  | _, 0 => .error .fuel
  | j, fuel + 1 =>
    match str.get? j with
    | none => .error .ub
    | some c => if c = 48 then bn__skip_zeros str (j + 1) fuel else .ok j

/-- bn__move_terminate models the closing loops of bignum_to_string: shift
the text j places down, then store the terminating zero. -/
def bn__move_terminate (str : List ℕ) (j nbytes : ℕ) : Except BnErr (List ℕ) := do
  let str ← (List.range (nbytes - j)).foldlM (fun s i =>
    match s.get? (i + j) with
    | none => Except.error BnErr.ub
    | some c => bn__write_cell s i c) str
  bn__write_cell str (nbytes - j) 0

/-- bignum_to_string: after the bn_assert checks, render the limbs most
significant first into the caller's buffer (str holds the buffer's current
contents), skip leading zero characters and zero-terminate. -/
def bignum_to_string (n str : List ℕ) (nbytes : ℕ) : Except BnErr (List ℕ) :=
  if nbytes = 0 then .error .abort
  else if nbytes % 2 ≠ 0 then .error .abort
  else do
    let str ← bn__to_string_loop n numWords 0 nbytes str
    let j ← bn__skip_zeros str 0 (str.length + 1)
    bn__move_terminate str j nbytes

/-! ### Basic facts about limb values -/

lemma BASE_pos : 0 < BASE := by unfold BASE; positivity

lemma bn_mod_split {u w m : ℕ} (hu : u < BASE) :
    (u + BASE * w) % (BASE * m) = u + BASE * (w % m) := by
  rcases Nat.eq_zero_or_pos m with hm | hm
  · subst hm; simp
  · have hw := Nat.div_add_mod w m
    have h1 : u + BASE * (w % m) < BASE * m := by
      have : w % m < m := Nat.mod_lt _ hm
      calc u + BASE * (w % m) < BASE + BASE * (w % m) := by omega
        _ = BASE * (w % m + 1) := by ring
        _ ≤ BASE * m := Nat.mul_le_mul_left _ (by omega)
    have h2 : u + BASE * w = u + BASE * (w % m) + (BASE * m) * (w / m) := by
      conv_lhs => rw [← hw]
      ring
    rw [h2, Nat.add_mul_mod_self_left, Nat.mod_eq_of_lt h1]

lemma bnValue_nil : bnValue [] = 0 := rfl

lemma bnValue_cons (x : ℕ) (xs : List ℕ) :
    bnValue (x :: xs) = x + BASE * bnValue xs := rfl

lemma bnValue_append (l l' : List ℕ) :
    bnValue (l ++ l') = bnValue l + BASE ^ l.length * bnValue l' := by
  induction l with
  | nil => simp [bnValue_nil, bnValue]
  | cons x xs ih =>
    simp only [List.cons_append, bnValue_cons, ih, List.length_cons, pow_succ]
    ring

lemma bnValue_replicate_zero (n : ℕ) : bnValue (List.replicate n 0) = 0 := by
  induction n with
  | zero => rfl
  | succ k ih => simp [List.replicate_succ, bnValue_cons, ih]

lemma bnValue_lt {l : List ℕ} (h : ∀ x ∈ l, x < BASE) :
    bnValue l < BASE ^ l.length := by
  induction l with
  | nil => simpa [bnValue_nil] using BASE_pos
  | cons x xs ih =>
    have hx : x < BASE := h x (by simp)
    have hxs : bnValue xs < BASE ^ xs.length := ih (fun y hy => h y (by simp [hy]))
    simp only [bnValue_cons, List.length_cons, pow_succ]
    calc x + BASE * bnValue xs < BASE + BASE * bnValue xs := by omega
      _ = BASE * (bnValue xs + 1) := by ring
      _ ≤ BASE * BASE ^ xs.length := Nat.mul_le_mul_left _ (by omega)
      _ = BASE ^ xs.length * BASE := by ring

lemma bnValue_take {l : List ℕ} (h : ∀ x ∈ l, x < BASE) {m : ℕ}
    (hm : m ≤ l.length) : bnValue (l.take m) = bnValue l % BASE ^ m := by
  have hsplit := List.take_append_drop m l
  have hlen : (l.take m).length = m := by
    rw [List.length_take]; omega
  have hval : bnValue l = bnValue (l.take m) + BASE ^ m * bnValue (l.drop m) := by
    conv_lhs => rw [← hsplit]
    rw [bnValue_append, hlen]
  have hlt : bnValue (l.take m) < BASE ^ m := by
    have := bnValue_lt (show ∀ x ∈ l.take m, x < BASE from
      fun x hx => h x (List.mem_of_mem_take hx))
    rwa [hlen] at this
  rw [hval, Nat.add_mul_mod_self_left, Nat.mod_eq_of_lt hlt]

lemma bnValue_eq_zero_iff {l : List ℕ} : bnValue l = 0 ↔ ∀ x ∈ l, x = 0 := by
  induction l with
  | nil => simp [bnValue_nil]
  | cons x xs ih =>
    simp only [bnValue_cons, List.mem_cons]
    constructor
    · intro h
      have hB := BASE_pos
      have hx : x = 0 := by omega
      have hxs : bnValue xs = 0 := by
        rcases Nat.eq_zero_or_pos (bnValue xs) with h0 | h0
        · exact h0
        · exfalso; have : BASE * 1 ≤ BASE * bnValue xs := Nat.mul_le_mul_left _ h0
          omega
      rcases ih.mp hxs with h'
      intro y hy
      rcases hy with hy | hy
      · exact hy ▸ hx
      · exact h' y hy
    · intro h
      have hx : x = 0 := h x (Or.inl rfl)
      have hxs : bnValue xs = 0 := ih.mpr (fun y hy => h y (Or.inr hy))
      simp [hx, hxs]

lemma bnValue_inj : ∀ {a b : List ℕ}, (∀ x ∈ a, x < BASE) → (∀ x ∈ b, x < BASE) →
    a.length = b.length → bnValue a = bnValue b → a = b
  | [], [], _, _, _, _ => rfl
  | x :: xs, y :: ys, ha, hb, hlen, hv => by
    have hx : x < BASE := ha x (by simp)
    have hy : y < BASE := hb y (by simp)
    simp only [bnValue_cons] at hv
    have hxy : x = y := by
      have h1 : (x + BASE * bnValue xs) % BASE = (y + BASE * bnValue ys) % BASE := by
        rw [hv]
      rwa [Nat.add_mul_mod_self_left, Nat.add_mul_mod_self_left,
        Nat.mod_eq_of_lt hx, Nat.mod_eq_of_lt hy] at h1
    have hvs : bnValue xs = bnValue ys := by
      have hB := BASE_pos
      have := hv
      rw [hxy] at this
      have h2 : BASE * bnValue xs = BASE * bnValue ys := by omega
      exact Nat.eq_of_mul_eq_mul_left hB h2
    have htail : xs = ys := bnValue_inj (fun z hz => ha z (by simp [hz]))
      (fun z hz => hb z (by simp [hz])) (by simpa using hlen) hvs
    rw [hxy, htail]

/-! ### Bitwise or on values -/

lemma bn_testBit_split {k b a : ℕ} (hb : b < 2 ^ k) (j : ℕ) :
    (b + 2 ^ k * a).testBit j = if j < k then b.testBit j else a.testBit (j - k) := by
  by_cases hj : j < k
  · rw [if_pos hj]
    have hk : 2 ^ k = 2 ^ j * 2 ^ (k - j) := by
      rw [← pow_add]; congr 1; omega
    rw [Nat.testBit_to_div_mod, Nat.testBit_to_div_mod]
    rw [hk, mul_assoc, Nat.add_mul_div_left _ _ (Nat.two_pow_pos j)]
    have hkj : 2 ^ (k - j) = 2 * 2 ^ (k - j - 1) := by
      rw [← pow_succ']; congr 1; omega
    rw [hkj, mul_assoc, Nat.add_mul_mod_self_left]
  · rw [if_neg hj]
    have hk : (2 : ℕ) ^ j = 2 ^ k * 2 ^ (j - k) := by
      rw [← pow_add]; congr 1; omega
    rw [Nat.testBit_to_div_mod, Nat.testBit_to_div_mod]
    rw [hk, ← Nat.div_div_eq_div_mul]
    congr 2
    rw [Nat.add_mul_div_left _ _ (Nat.two_pow_pos k), Nat.div_eq_of_lt hb, Nat.zero_add]

lemma bn_lor_lt {k x y : ℕ} (hx : x < 2 ^ k) (hy : y < 2 ^ k) : x ||| y < 2 ^ k := by
  have h : x ||| y = (x ||| y) % 2 ^ k := by
    apply Nat.eq_of_testBit_eq
    intro j
    rw [Nat.testBit_mod_two_pow]
    by_cases hj : j < k
    · simp [hj]
    · have hxj : x.testBit j = false :=
        Nat.testBit_eq_false_of_lt (lt_of_lt_of_le hx (Nat.pow_le_pow_right (by norm_num) (by omega)))
      have hyj : y.testBit j = false :=
        Nat.testBit_eq_false_of_lt (lt_of_lt_of_le hy (Nat.pow_le_pow_right (by norm_num) (by omega)))
      simp [hj, Nat.testBit_lor, hxj, hyj]
  rw [h]
  exact Nat.mod_lt _ (Nat.two_pow_pos k)

lemma bn_lor_split {k x y u v : ℕ} (hx : x < 2 ^ k) (hy : y < 2 ^ k) :
    (x + 2 ^ k * u) ||| (y + 2 ^ k * v) = (x ||| y) + 2 ^ k * (u ||| v) := by
  apply Nat.eq_of_testBit_eq
  intro j
  rw [Nat.testBit_lor, bn_testBit_split hx, bn_testBit_split hy,
    bn_testBit_split (bn_lor_lt hx hy), Nat.testBit_lor, Nat.testBit_lor]
  by_cases hj : j < k <;> simp [hj]

lemma bn_lor_two_pow {k u : ℕ} (h : u % 2 ^ (k + 1) = 0) :
    u ||| 2 ^ k = u + 2 ^ k := by
  obtain ⟨t, ht⟩ := Nat.dvd_of_mod_eq_zero h
  subst ht
  apply Nat.eq_of_testBit_eq
  intro j
  have h1 : (2 : ℕ) ^ (k + 1) * t = 0 + 2 ^ (k + 1) * t := by ring
  have h2 : (2 : ℕ) ^ (k + 1) * t + 2 ^ k = 2 ^ k + 2 ^ (k + 1) * t := by ring
  rw [Nat.testBit_lor, h2, bn_testBit_split
    (show (2 : ℕ) ^ k < 2 ^ (k + 1) from Nat.pow_lt_pow_right (by norm_num) (by omega)),
    h1, bn_testBit_split (Nat.two_pow_pos (k + 1))]
  by_cases hj : j < k + 1
  · simp [hj, Nat.zero_testBit]
  · have : (2 ^ k).testBit j = false := Nat.testBit_two_pow_of_ne (by omega)
    simp [hj, this, Nat.zero_testBit]

/-! ### Addition -/

lemma bn__add_loop_length : ∀ (xs ys : List ℕ) (c : ℕ),
    (bn__add_loop xs ys c).length = min xs.length ys.length
  | [], [], _ => rfl
  | [], _ :: _, _ => rfl
  | _ :: _, [], _ => rfl
  | x :: xs, y :: ys, c => by
    simp [bn__add_loop, bn__add_loop_length xs ys, Nat.succ_min_succ]

lemma bn__add_loop_bounds : ∀ (xs ys : List ℕ) (c : ℕ),
    ∀ z ∈ bn__add_loop xs ys c, z < BASE
  | x :: xs, y :: ys, c => by
    intro z hz
    simp only [bn__add_loop, List.mem_cons] at hz
    rcases hz with hz | hz
    · exact hz ▸ Nat.mod_lt _ BASE_pos
    · exact bn__add_loop_bounds xs ys _ z hz
  | [], [], _ => by intro z hz; simp [bn__add_loop] at hz
  | [], _ :: _, _ => by intro z hz; simp [bn__add_loop] at hz
  | _ :: _, [], _ => by intro z hz; simp [bn__add_loop] at hz

lemma bn__add_loop_value : ∀ (xs ys : List ℕ) (c : ℕ), xs.length = ys.length →
    (∀ x ∈ xs, x < BASE) → (∀ y ∈ ys, y < BASE) → c ≤ 1 →
    bnValue (bn__add_loop xs ys c) = (bnValue xs + bnValue ys + c) % BASE ^ xs.length
  | [], [], c, _, _, _, hc => by
    interval_cases c <;> simp [bn__add_loop, bnValue_nil]
  | [], y :: ys, c, hlen, _, _, _ => by simp at hlen
  | x :: xs, [], c, hlen, _, _, _ => by simp at hlen
  | x :: xs, y :: ys, c, hlen, ha, hb, hc => by
    have hx : x < BASE := ha x (by simp)
    have hy : y < BASE := hb y (by simp)
    have hlen' : xs.length = ys.length := by simpa using hlen
    have ih := bn__add_loop_value xs ys (if x + y + c > BASE - 1 then 1 else 0) hlen'
      (fun z hz => ha z (by simp [hz])) (fun z hz => hb z (by simp [hz]))
      (by split <;> omega)
    simp only [bn__add_loop, bnValue_cons, List.length_cons]
    rw [ih]
    have hB := BASE_pos
    set c' : ℕ := if x + y + c > BASE - 1 then 1 else 0 with hc'
    have hsplit : x + y + c = BASE * c' + (x + y + c) % BASE := by
      rw [hc']
      by_cases h : x + y + c > BASE - 1
      · rw [if_pos h]
        have h1 : BASE ≤ x + y + c := by omega
        have h2 : x + y + c - BASE < BASE := by omega
        rw [Nat.mod_eq_sub_mod h1, Nat.mod_eq_of_lt h2]
        omega
      · rw [if_neg h, Nat.mod_eq_of_lt (by omega)]
        omega
    have hmod : (x + y + c) % BASE < BASE := Nat.mod_lt _ hB
    have hN : x + BASE * bnValue xs + (y + BASE * bnValue ys) + c
        = (x + y + c) % BASE + BASE * (c' + (bnValue xs + bnValue ys)) := by
      have h3 : x + BASE * bnValue xs + (y + BASE * bnValue ys) + c
          = (x + y + c) + BASE * (bnValue xs + bnValue ys) := by ring
      rw [h3]
      nth_rewrite 1 [hsplit]
      ring
    rw [pow_succ', hN, bn_mod_split hmod]
    congr 2
    ring

lemma bignum_add_wf {a b : List ℕ} (ha : bn_wf a) (hb : bn_wf b) :
    bn_wf (bignum_add a b) := by
  refine ⟨?_, bn__add_loop_bounds a b 0⟩
  rw [bignum_add, bn__add_loop_length, ha.1, hb.1]
  simp

lemma bignum_add_value {a b : List ℕ} (ha : bn_wf a) (hb : bn_wf b) :
    bnValue (bignum_add a b) = (bnValue a + bnValue b) % CAP := by
  have := bn__add_loop_value a b 0 (ha.1.trans hb.1.symm) ha.2 hb.2 (by omega)
  rw [bignum_add, this, ha.1]
  rfl

/-! ### Subtraction -/

lemma bn__sub_loop_length : ∀ (xs ys : List ℕ) (c : ℕ),
    (bn__sub_loop xs ys c).length = min xs.length ys.length
  | [], [], _ => rfl
  | [], _ :: _, _ => rfl
  | _ :: _, [], _ => rfl
  | x :: xs, y :: ys, c => by
    simp [bn__sub_loop, bn__sub_loop_length xs ys, Nat.succ_min_succ]

lemma bn__sub_loop_bounds : ∀ (xs ys : List ℕ) (c : ℕ),
    ∀ z ∈ bn__sub_loop xs ys c, z < BASE
  | x :: xs, y :: ys, c => by
    intro z hz
    simp only [bn__sub_loop, List.mem_cons] at hz
    rcases hz with hz | hz
    · exact hz ▸ Nat.mod_lt _ BASE_pos
    · exact bn__sub_loop_bounds xs ys _ z hz
  | [], [], _ => by intro z hz; simp [bn__sub_loop] at hz
  | [], _ :: _, _ => by intro z hz; simp [bn__sub_loop] at hz
  | _ :: _, [], _ => by intro z hz; simp [bn__sub_loop] at hz

lemma bn_mod_split_int {u w M : ℤ} (h0 : 0 ≤ u) (hu : u < (BASE : ℤ))
    (hM : 0 < M) : (u + BASE * w) % (BASE * M) = u + BASE * (w % M) := by
  have hw := Int.ediv_add_emod w M
  have h1 : 0 ≤ w % M := Int.emod_nonneg _ (by omega)
  have h2 : w % M < M := Int.emod_lt_of_pos _ hM
  have hBp : (0 : ℤ) < BASE := by have := BASE_pos; exact_mod_cast this
  have h3 : u + BASE * (w % M) < BASE * M := by
    calc u + BASE * (w % M) < BASE + BASE * (w % M) := by omega
      _ = BASE * (w % M + 1) := by ring
      _ ≤ BASE * M := by
        apply mul_le_mul_of_nonneg_left (by omega) (by omega)
  have h4 : u + BASE * w = (u + BASE * (w % M)) + (BASE * M) * (w / M) := by
    conv_lhs => rw [← hw]
    ring
  rw [h4, Int.add_mul_emod_self_left, Int.emod_eq_of_lt (by positivity) h3]

lemma bn__sub_loop_value : ∀ (xs ys : List ℕ) (c : ℕ), xs.length = ys.length →
    (∀ x ∈ xs, x < BASE) → (∀ y ∈ ys, y < BASE) → c ≤ 1 →
    (bnValue (bn__sub_loop xs ys c) : ℤ) =
      ((bnValue xs : ℤ) - bnValue ys - c) % (BASE : ℤ) ^ xs.length
  | [], [], c, _, _, _, hc => by
    interval_cases c <;> simp [bn__sub_loop, bnValue_nil]
  | [], y :: ys, c, hlen, _, _, _ => by simp at hlen
  | x :: xs, [], c, hlen, _, _, _ => by simp at hlen
  | x :: xs, y :: ys, c, hlen, ha, hb, hc => by
    have hx : x < BASE := ha x (by simp)
    have hy : y < BASE := hb y (by simp)
    have hB := BASE_pos
    have hlen' : xs.length = ys.length := by simpa using hlen
    have hyc : y + c ≤ BASE := by omega
    set res : ℕ := x + BASE - (y + c) with hres
    have hresB : res < 2 * BASE := by omega
    set c' : ℕ := if res ≤ BASE - 1 then 1 else 0 with hc'
    have ih := bn__sub_loop_value xs ys c' hlen'
      (fun z hz => ha z (by simp [hz])) (fun z hz => hb z (by simp [hz]))
      (by rw [hc']; split <;> omega)
    show ((res % BASE : ℕ) : ℤ) + (BASE : ℤ) * (bnValue (bn__sub_loop xs ys c') : ℤ) = _
    rw [ih]
    have hu : ((res % BASE : ℕ) : ℤ) = (x : ℤ) - y - c + BASE * c' := by
      rw [hc']
      by_cases h : res ≤ BASE - 1
      · rw [if_pos h]
        have : res % BASE = res := Nat.mod_eq_of_lt (by omega)
        rw [this]
        push_cast [hres]
        omega
      · rw [if_neg h]
        have h1 : BASE ≤ res := by omega
        have h2 : res - BASE < BASE := by omega
        rw [Nat.mod_eq_sub_mod h1, Nat.mod_eq_of_lt h2]
        push_cast [hres]
        omega
    have hkey : (bnValue (x :: xs) : ℤ) - (bnValue (y :: ys) : ℤ) - c
        = ((res % BASE : ℕ) : ℤ)
          + BASE * ((bnValue xs : ℤ) - bnValue ys - c') := by
      rw [hu, bnValue_cons, bnValue_cons]
      push_cast
      ring
    have hu0 : (0 : ℤ) ≤ ((res % BASE : ℕ) : ℤ) := by positivity
    have huB : ((res % BASE : ℕ) : ℤ) < (BASE : ℤ) := by
      exact_mod_cast Nat.mod_lt _ hB
    rw [List.length_cons, hkey, pow_succ',
      bn_mod_split_int hu0 huB (by positivity)]

lemma bignum_sub_wf {a b : List ℕ} (ha : bn_wf a) (hb : bn_wf b) :
    bn_wf (bignum_sub a b) := by
  refine ⟨?_, bn__sub_loop_bounds a b 0⟩
  rw [bignum_sub, bn__sub_loop_length, ha.1, hb.1]
  simp

lemma bignum_sub_value_int {a b : List ℕ} (ha : bn_wf a) (hb : bn_wf b) :
    (bnValue (bignum_sub a b) : ℤ) = ((bnValue a : ℤ) - bnValue b) % (CAP : ℤ) := by
  have h := bn__sub_loop_value a b 0 (ha.1.trans hb.1.symm) ha.2 hb.2 (by omega)
  have hcast : ((CAP : ℕ) : ℤ) = (BASE : ℤ) ^ numWords := by
    rw [CAP]; push_cast; ring
  rw [bignum_sub, h, ha.1, hcast]
  norm_num

lemma bignum_sub_value_exact {a b : List ℕ} (ha : bn_wf a) (hb : bn_wf b)
    (h : bnValue b ≤ bnValue a) :
    bnValue (bignum_sub a b) = bnValue a - bnValue b := by
  have hA : bnValue a < CAP := by
    have := bnValue_lt ha.2
    rwa [ha.1] at this
  have h1 := bignum_sub_value_int ha hb
  have h2 : ((bnValue a : ℤ) - bnValue b) % (CAP : ℤ) = (bnValue a : ℤ) - bnValue b := by
    apply Int.emod_eq_of_lt
    · omega
    · have : (bnValue a : ℤ) < CAP := by exact_mod_cast hA
      omega
  rw [h2] at h1
  have : (bnValue (bignum_sub a b) : ℤ) = ((bnValue a - bnValue b : ℕ) : ℤ) := by
    rw [h1]
    omega
  exact_mod_cast this

/-! ### Comparison and zero test -/

lemma bn__cmp_loop_spec : ∀ (r s : List ℕ), r.length = s.length →
    (∀ x ∈ r, x < BASE) → (∀ x ∈ s, x < BASE) →
    bn__cmp_loop r s = if bnValue r.reverse < bnValue s.reverse then -1
      else if bnValue s.reverse < bnValue r.reverse then 1 else 0
  | [], [], _, _, _ => by simp [bn__cmp_loop]
  | [], _ :: _, hlen, _, _ => by simp at hlen
  | _ :: _, [], hlen, _, _ => by simp at hlen
  | x :: xs, y :: ys, hlen, ha, hb => by
    have hx : x < BASE := ha x (by simp)
    have hy : y < BASE := hb y (by simp)
    have hlen' : xs.length = ys.length := by simpa using hlen
    have hxa : ∀ z ∈ xs, z < BASE := fun z hz => ha z (by simp [hz])
    have hyb : ∀ z ∈ ys, z < BASE := fun z hz => hb z (by simp [hz])
    have hxr : bnValue xs.reverse < BASE ^ xs.length := by
      have := bnValue_lt (show ∀ x ∈ xs.reverse, x < BASE by simpa using hxa)
      simpa using this
    have hyr : bnValue ys.reverse < BASE ^ ys.length := by
      have := bnValue_lt (show ∀ x ∈ ys.reverse, x < BASE by simpa using hyb)
      simpa using this
    have hvx : bnValue (x :: xs).reverse
        = bnValue xs.reverse + BASE ^ xs.length * x := by
      simp only [List.reverse_cons, bnValue_append, List.length_reverse]
      simp [bnValue_cons, bnValue_nil]
    have hvy : bnValue (y :: ys).reverse
        = bnValue ys.reverse + BASE ^ ys.length * y := by
      simp only [List.reverse_cons, bnValue_append, List.length_reverse]
      simp [bnValue_cons, bnValue_nil]
    simp only [bn__cmp_loop, hvx, hvy]
    rcases lt_trichotomy x y with hxy | hxy | hxy
    · have hne : ¬ x > y := by omega
      have hlt : bnValue xs.reverse + BASE ^ xs.length * x
          < bnValue ys.reverse + BASE ^ ys.length * y := by
        rw [hlen']
        calc bnValue xs.reverse + BASE ^ ys.length * x
            < BASE ^ ys.length + BASE ^ ys.length * x := by
              rw [← hlen']; omega
          _ = BASE ^ ys.length * (x + 1) := by ring
          _ ≤ BASE ^ ys.length * y := Nat.mul_le_mul_left _ (by omega)
          _ ≤ bnValue ys.reverse + BASE ^ ys.length * y := by omega
      rw [if_neg hne, if_pos hxy, if_pos hlt]
    · subst hxy
      rw [if_neg (by omega), if_neg (by omega)]
      rw [bn__cmp_loop_spec xs ys hlen' hxa hyb, hlen']
      have hc : ∀ t u v : ℕ, (t + v < u + v ↔ t < u) := by intro t u v; omega
      rw [if_congr (hc _ _ _) rfl rfl, if_congr (hc _ _ _) rfl rfl]
    · have hlt : bnValue ys.reverse + BASE ^ ys.length * y
          < bnValue xs.reverse + BASE ^ xs.length * x := by
        rw [hlen']
        calc bnValue ys.reverse + BASE ^ ys.length * y
            < BASE ^ ys.length + BASE ^ ys.length * y := by omega
          _ = BASE ^ ys.length * (y + 1) := by ring
          _ ≤ BASE ^ ys.length * x := Nat.mul_le_mul_left _ (by omega)
          _ ≤ bnValue xs.reverse + BASE ^ ys.length * x := by omega
      rw [if_pos hxy, if_neg (by omega), if_pos hlt]

lemma bignum_cmp_spec {a b : List ℕ} (ha : bn_wf a) (hb : bn_wf b) :
    bignum_cmp a b = if bnValue a < bnValue b then -1
      else if bnValue b < bnValue a then 1 else 0 := by
  rw [bignum_cmp, bn__cmp_loop_spec a.reverse b.reverse
    (by simp [ha.1, hb.1]) (by simpa using ha.2) (by simpa using hb.2)]
  simp

lemma bignum_is_zero_iff {l : List ℕ} :
    bignum_is_zero l = true ↔ bnValue l = 0 := by
  simp [bignum_is_zero, List.all_eq_true, bnValue_eq_zero_iff]

/-! ### Bitwise or -/

lemma bignum_or_value : ∀ {a b : List ℕ}, a.length = b.length →
    (∀ x ∈ a, x < BASE) → (∀ x ∈ b, x < BASE) →
    bnValue (bignum_or a b) = bnValue a ||| bnValue b
  | [], [], _, _, _ => by simp [bignum_or, bnValue_nil]
  | [], _ :: _, hlen, _, _ => by simp at hlen
  | _ :: _, [], hlen, _, _ => by simp at hlen
  | x :: xs, y :: ys, hlen, ha, hb => by
    have hx : x < BASE := ha x (by simp)
    have hy : y < BASE := hb y (by simp)
    have hlen' : xs.length = ys.length := by simpa using hlen
    have ih := bignum_or_value hlen' (fun z hz => ha z (by simp [hz]))
      (fun z hz => hb z (by simp [hz]))
    show bnValue ((x ||| y) :: List.zipWith _ xs ys) = _
    rw [bnValue_cons, bnValue_cons, bnValue_cons]
    have hx32 : x < 2 ^ 32 := hx
    have hy32 : y < 2 ^ 32 := hy
    have := @bn_lor_split 32 x y (bnValue xs) (bnValue ys) hx32 hy32
    rw [show (BASE : ℕ) = 2 ^ 32 from rfl, this]
    rw [show bignum_or xs ys = List.zipWith (fun x y => x ||| y) xs ys from rfl] at ih
    rw [ih]

lemma bn__or_bounds : ∀ (a b : List ℕ), (∀ x ∈ a, x < BASE) → (∀ x ∈ b, x < BASE) →
    ∀ z ∈ List.zipWith (fun x y => x ||| y) a b, z < BASE
  | [], _, _, _ => by simp
  | _ :: _, [], _, _ => by simp
  | x :: xs, y :: ys, ha, hb => by
    intro z hz
    simp only [List.zipWith_cons_cons, List.mem_cons] at hz
    rcases hz with hz | hz
    · subst hz
      exact @bn_lor_lt 32 _ _ (ha x (by simp)) (hb y (by simp))
    · exact bn__or_bounds xs ys (fun t ht => ha t (by simp [ht]))
        (fun t ht => hb t (by simp [ht])) z hz

lemma bignum_or_wf {a b : List ℕ} (ha : bn_wf a) (hb : bn_wf b) :
    bn_wf (bignum_or a b) := by
  constructor
  · rw [bignum_or, List.length_zipWith, ha.1, hb.1]; simp
  · exact bn__or_bounds a b ha.2 hb.2

/-! ### Sub-word bit shifts -/

lemma bn_two_pow_mul_split (r : ℕ) (hr : r ≤ 32) :
    (BASE : ℕ) = 2 ^ r * 2 ^ (32 - r) := by
  rw [← pow_add]
  show (2 : ℕ) ^ 32 = _
  congr 1
  omega

lemma bn__lshift_bits_go_length : ∀ (l : List ℕ) (prev r : ℕ),
    (bn__lshift_bits_go l prev r).length = l.length
  | [], _, _ => rfl
  | x :: xs, prev, r => by
    simp [bn__lshift_bits_go, bn__lshift_bits_go_length xs x r]

lemma bn__lshift_bits_go_bounds : ∀ (l : List ℕ) (prev r : ℕ),
    (∀ z ∈ l, z < BASE) → prev < BASE →
    ∀ z ∈ bn__lshift_bits_go l prev r, z < BASE
  | [], _, _, _, _ => by simp [bn__lshift_bits_go]
  | x :: xs, prev, r, ha, hprev => by
    intro z hz
    simp only [bn__lshift_bits_go, List.mem_cons] at hz
    rcases hz with hz | hz
    · subst hz
      apply @bn_lor_lt 32 _ _ (Nat.mod_lt _ BASE_pos)
      calc prev >>> (32 - r) ≤ prev := by
            rw [Nat.shiftRight_eq_div_pow]; exact Nat.div_le_self _ _
        _ < 2 ^ 32 := hprev
    · exact bn__lshift_bits_go_bounds xs x r
        (fun t ht => ha t (by simp [ht])) (ha x (by simp)) z hz

lemma bn__lshift_bits_go_value : ∀ (l : List ℕ) (prev r : ℕ),
    (∀ x ∈ l, x < BASE) → prev < BASE → r ≤ 32 →
    bnValue (bn__lshift_bits_go l prev r)
      = (2 ^ r * bnValue l + prev >>> (32 - r)) % BASE ^ l.length
  | [], prev, r, _, _, _ => by simp [bn__lshift_bits_go, bnValue_nil, Nat.mod_one]
  | x :: xs, prev, r, ha, hprev, hr => by
    have hx : x < BASE := ha x (by simp)
    have ih := bn__lshift_bits_go_value xs x r (fun z hz => ha z (by simp [hz])) hx hr
    have hB := bn_two_pow_mul_split r hr
    have hm : (x <<< r) % BASE = 2 ^ r * (x % 2 ^ (32 - r)) := by
      rw [Nat.shiftLeft_eq, hB, mul_comm x (2 ^ r), Nat.mul_mod_mul_left]
    have hp : prev >>> (32 - r) < 2 ^ r := by
      rw [Nat.shiftRight_eq_div_pow]
      apply Nat.div_lt_of_lt_mul
      calc prev < BASE := hprev
        _ = 2 ^ (32 - r) * 2 ^ r := by rw [hB]; ring
    have hhead : ((x <<< r) % BASE) ||| (prev >>> (32 - r))
        = 2 ^ r * (x % 2 ^ (32 - r)) + prev >>> (32 - r) := by
      rw [hm]
      have h1 : 2 ^ r * (x % 2 ^ (32 - r)) = 0 + 2 ^ r * (x % 2 ^ (32 - r)) := by ring
      have h2 : prev >>> (32 - r) = prev >>> (32 - r) + 2 ^ r * 0 := by ring
      rw [h1, h2, bn_lor_split (Nat.two_pow_pos r) hp]
      simp [Nat.zero_or, Nat.or_zero]
      omega
    have hx_split : 2 ^ r * x
        = BASE * (x >>> (32 - r)) + 2 ^ r * (x % 2 ^ (32 - r)) := by
      rw [Nat.shiftRight_eq_div_pow]
      have hdm := Nat.div_add_mod x (2 ^ (32 - r))
      calc 2 ^ r * x
          = 2 ^ r * (2 ^ (32 - r) * (x / 2 ^ (32 - r)) + x % 2 ^ (32 - r)) := by
            rw [hdm]
        _ = (2 ^ r * 2 ^ (32 - r)) * (x / 2 ^ (32 - r)) + 2 ^ r * (x % 2 ^ (32 - r)) := by
            ring
        _ = BASE * (x / 2 ^ (32 - r)) + 2 ^ r * (x % 2 ^ (32 - r)) := by rw [← hB]
    have hu_lt : 2 ^ r * (x % 2 ^ (32 - r)) + prev >>> (32 - r) < BASE := by
      have h1 : x % 2 ^ (32 - r) < 2 ^ (32 - r) := Nat.mod_lt _ (Nat.two_pow_pos _)
      calc 2 ^ r * (x % 2 ^ (32 - r)) + prev >>> (32 - r)
          < 2 ^ r * (x % 2 ^ (32 - r)) + 2 ^ r := by omega
        _ = 2 ^ r * (x % 2 ^ (32 - r) + 1) := by ring
        _ ≤ 2 ^ r * 2 ^ (32 - r) := Nat.mul_le_mul_left _ (by omega)
        _ = BASE := hB.symm
    simp only [bn__lshift_bits_go, bnValue_cons, List.length_cons]
    rw [hhead, ih]
    have hN : 2 ^ r * (x + BASE * bnValue xs) + prev >>> (32 - r)
        = (2 ^ r * (x % 2 ^ (32 - r)) + prev >>> (32 - r))
          + BASE * (x >>> (32 - r) + 2 ^ r * bnValue xs) := by
      have h3 : 2 ^ r * (x + BASE * bnValue xs) + prev >>> (32 - r)
          = 2 ^ r * x + (BASE * (2 ^ r * bnValue xs) + prev >>> (32 - r)) := by ring
      rw [h3, hx_split]
      ring
    rw [pow_succ', hN, bn_mod_split hu_lt]
    congr 2
    ring

lemma bn__rshift_bits_length : ∀ (l : List ℕ) (r : ℕ),
    (bn__rshift_bits l r).length = l.length
  | [], _ => rfl
  | [_], _ => rfl
  | _ :: y :: ys, r => by
    simp [bn__rshift_bits, bn__rshift_bits_length (y :: ys) r]

lemma bn__rshift_bits_bounds : ∀ (l : List ℕ) (r : ℕ), (∀ x ∈ l, x < BASE) →
    ∀ z ∈ bn__rshift_bits l r, z < BASE
  | [], _, _ => by simp [bn__rshift_bits]
  | [x], r, ha => by
    intro z hz
    simp only [bn__rshift_bits, List.mem_cons] at hz
    rcases hz with hz | hz
    · subst hz
      calc x >>> r ≤ x := by
            rw [Nat.shiftRight_eq_div_pow]; exact Nat.div_le_self _ _
        _ < BASE := ha x (by simp)
    · simp at hz
  | x :: y :: ys, r, ha => by
    intro z hz
    simp only [bn__rshift_bits, List.mem_cons] at hz
    rcases hz with hz | hz
    · subst hz
      apply @bn_lor_lt 32 _ _ ?_ (Nat.mod_lt _ BASE_pos)
      calc x >>> r ≤ x := by
            rw [Nat.shiftRight_eq_div_pow]; exact Nat.div_le_self _ _
        _ < 2 ^ 32 := ha x (by simp)
    · exact bn__rshift_bits_bounds (y :: ys) r
        (fun t ht => ha t (by simp at ht; rcases ht with h | h <;> simp [h])) z hz

lemma bn__rshift_bits_value : ∀ (l : List ℕ) (r : ℕ), (∀ x ∈ l, x < BASE) →
    r ≤ 32 → bnValue (bn__rshift_bits l r) = bnValue l / 2 ^ r
  | [], r, _, _ => by simp [bn__rshift_bits, bnValue_nil]
  | [x], r, _, _ => by
    simp [bn__rshift_bits, bnValue_cons, bnValue_nil, Nat.shiftRight_eq_div_pow]
  | x :: y :: ys, r, ha, hr => by
    have hx : x < BASE := ha x (by simp)
    have hy : y < BASE := ha y (by simp)
    have ih := bn__rshift_bits_value (y :: ys) r
      (fun t ht => ha t (by simp at ht; rcases ht with h | h <;> simp [h])) hr
    have hB := bn_two_pow_mul_split r hr
    have hm : (y <<< (32 - r)) % BASE = 2 ^ (32 - r) * (y % 2 ^ r) := by
      rw [Nat.shiftLeft_eq, mul_comm y (2 ^ (32 - r))]
      rw [show (BASE : ℕ) = 2 ^ (32 - r) * 2 ^ r from by rw [hB]; ring]
      rw [Nat.mul_mod_mul_left]
    have hxd : x >>> r < 2 ^ (32 - r) := by
      rw [Nat.shiftRight_eq_div_pow]
      apply Nat.div_lt_of_lt_mul
      calc x < BASE := hx
        _ = 2 ^ r * 2 ^ (32 - r) := hB
    have hhead : (x >>> r) ||| ((y <<< (32 - r)) % BASE)
        = x >>> r + 2 ^ (32 - r) * (y % 2 ^ r) := by
      rw [hm]
      have h1 : x >>> r = x >>> r + 2 ^ (32 - r) * 0 := by ring
      have h2 : 2 ^ (32 - r) * (y % 2 ^ r) = 0 + 2 ^ (32 - r) * (y % 2 ^ r) := by ring
      nth_rewrite 1 [h1]
      nth_rewrite 1 [h2]
      rw [bn_lor_split hxd (Nat.two_pow_pos _)]
      simp [Nat.zero_or, Nat.or_zero]
    have htmod : bnValue (y :: ys) % 2 ^ r = y % 2 ^ r := by
      rw [bnValue_cons]
      rw [show (BASE : ℕ) = 2 ^ r * 2 ^ (32 - r) from hB]
      rw [mul_assoc, Nat.add_mul_mod_self_left]
    have hsplit : 2 ^ (32 - r) * bnValue (y :: ys)
        = 2 ^ (32 - r) * (bnValue (y :: ys) % 2 ^ r)
          + BASE * (bnValue (y :: ys) / 2 ^ r) := by
      have hdm := Nat.div_add_mod (bnValue (y :: ys)) (2 ^ r)
      calc 2 ^ (32 - r) * bnValue (y :: ys)
          = 2 ^ (32 - r) * (2 ^ r * (bnValue (y :: ys) / 2 ^ r)
              + bnValue (y :: ys) % 2 ^ r) := by rw [hdm]
        _ = (2 ^ r * 2 ^ (32 - r)) * (bnValue (y :: ys) / 2 ^ r)
              + 2 ^ (32 - r) * (bnValue (y :: ys) % 2 ^ r) := by ring
        _ = BASE * (bnValue (y :: ys) / 2 ^ r)
              + 2 ^ (32 - r) * (bnValue (y :: ys) % 2 ^ r) := by rw [← hB]
        _ = _ := by ring
    have hdiv : (x + BASE * bnValue (y :: ys)) / 2 ^ r
        = x / 2 ^ r + 2 ^ (32 - r) * bnValue (y :: ys) := by
      rw [show (BASE : ℕ) = 2 ^ r * 2 ^ (32 - r) from hB, mul_assoc]
      rw [Nat.add_mul_div_left _ _ (Nat.two_pow_pos r)]
    show bnValue (_ :: bn__rshift_bits (y :: ys) r) = bnValue (x :: y :: ys) / 2 ^ r
    rw [bnValue_cons, hhead, ih,
      show bnValue (x :: y :: ys) = x + BASE * bnValue (y :: ys) from rfl,
      hdiv, hsplit, htmod, Nat.shiftRight_eq_div_pow]
    ring

/-! ### Word shifts and from_int -/

lemma bn__lshift_word_value {l : List ℕ} (h : bn_wf l) (k : ℕ) :
    bnValue (bn__lshift_word l k) = (BASE ^ k * bnValue l) % CAP := by
  rw [bn__lshift_word]
  by_cases hk : k ≤ numWords
  · rw [min_eq_left hk]
    rw [bnValue_append, bnValue_replicate_zero, List.length_replicate]
    rw [bnValue_take h.2 (by rw [h.1]; omega)]
    rw [zero_add]
    have hsplit : (BASE : ℕ) ^ numWords = BASE ^ k * BASE ^ (numWords - k) := by
      rw [← pow_add]; congr 1; omega
    rw [CAP, hsplit, Nat.mul_mod_mul_left]
  · push_neg at hk
    rw [min_eq_right (by omega), show numWords - k = 0 from by omega]
    simp only [List.take_zero, List.append_nil, bnValue_replicate_zero]
    have hdvd : (CAP : ℕ) ∣ BASE ^ k * bnValue l :=
      Dvd.dvd.mul_right (pow_dvd_pow BASE (by omega)) _
    obtain ⟨t, ht⟩ := hdvd
    rw [ht, Nat.mul_mod_right]

lemma bignum_init_wf : bn_wf bignum_init := by
  constructor
  · simp [bignum_init]
  · intro x hx
    rw [bignum_init, List.mem_replicate] at hx
    rw [hx.2]
    exact BASE_pos

lemma bignum_init_value : bnValue bignum_init = 0 := bnValue_replicate_zero _

lemma bn_wf_value_lt {l : List ℕ} (h : bn_wf l) : bnValue l < CAP := by
  have := bnValue_lt h.2
  rwa [h.1] at this

lemma bn__lshift_word_wf {l : List ℕ} (h : bn_wf l) (k : ℕ) :
    bn_wf (bn__lshift_word l k) := by
  constructor
  · rw [bn__lshift_word, List.length_append, List.length_replicate,
      List.length_take, h.1]
    simp only [numWords]
    omega
  · intro z hz
    rw [bn__lshift_word, List.mem_append, List.mem_replicate] at hz
    rcases hz with hz | hz
    · rw [hz.2]; exact BASE_pos
    · exact h.2 z (List.mem_of_mem_take hz)

lemma bn__lshift_one_bit_value {l : List ℕ} (h : bn_wf l) :
    bnValue (bn__lshift_one_bit l) = (2 * bnValue l) % CAP := by
  rw [bn__lshift_one_bit, bn__lshift_bits_go_value l 0 1 h.2 BASE_pos (by omega)]
  rw [h.1]
  norm_num [CAP]

lemma bn__lshift_one_bit_exact {l : List ℕ} (h : bn_wf l)
    (h2 : 2 * bnValue l < CAP) :
    bnValue (bn__lshift_one_bit l) = 2 * bnValue l := by
  rw [bn__lshift_one_bit_value h, Nat.mod_eq_of_lt h2]

lemma bn__lshift_one_bit_wf {l : List ℕ} (h : bn_wf l) :
    bn_wf (bn__lshift_one_bit l) := by
  constructor
  · rw [bn__lshift_one_bit, bn__lshift_bits_go_length, h.1]
  · exact bn__lshift_bits_go_bounds l 0 1 h.2 BASE_pos

lemma bn__rshift_one_bit_value {l : List ℕ} (h : bn_wf l) :
    bnValue (bn__rshift_one_bit l) = bnValue l / 2 := by
  rw [bn__rshift_one_bit, bn__rshift_bits_value l 1 h.2 (by omega)]
  norm_num

lemma bn__rshift_one_bit_wf {l : List ℕ} (h : bn_wf l) :
    bn_wf (bn__rshift_one_bit l) := by
  constructor
  · rw [bn__rshift_one_bit, bn__rshift_bits_length, h.1]
  · exact bn__rshift_bits_bounds l 1 h.2

/-! ### from_int -/

lemma bignum_from_int_wf (x : ℕ) : bn_wf (bignum_from_int x) := by
  constructor
  · simp [bignum_from_int, numWords]
  · intro z hz
    simp only [bignum_from_int, List.mem_cons] at hz
    rcases hz with hz | hz | hz
    · rw [hz]; exact Nat.mod_lt _ BASE_pos
    · rw [hz]; exact Nat.mod_lt _ BASE_pos
    · rw [List.mem_replicate] at hz
      rw [hz.2]; exact BASE_pos

lemma bignum_from_int_value (x : ℕ) :
    bnValue (bignum_from_int x) = x % 2 ^ 64 := by
  rw [bignum_from_int, bnValue_cons, bnValue_cons, bnValue_replicate_zero]
  have h1 : x % (BASE * BASE) % BASE = x % BASE :=
    Nat.mod_mod_of_dvd _ (dvd_mul_left BASE BASE)
  have h2 : x % (BASE * BASE) / BASE = x / BASE % BASE :=
    Nat.mod_mul_right_div_self x BASE BASE
  have h3 := Nat.div_add_mod (x % (BASE * BASE)) BASE
  have h4 : x % BASE + BASE * (x / BASE % BASE) = x % (BASE * BASE) := by
    rw [← h1, ← h2]
    omega
  rw [mul_zero, add_zero, h4]
  congr 1

lemma bignum_from_int_value_small {x : ℕ} (h : x < 2 ^ 64) :
    bnValue (bignum_from_int x) = x := by
  rw [bignum_from_int_value, Nat.mod_eq_of_lt h]

/-! ### Top limb against the value -/

lemma bn_getD_append_length : ∀ (f : List ℕ) (x d : ℕ),
    (f ++ [x]).getD f.length d = x
  | [], x, d => rfl
  | y :: ys, x, d => bn_getD_append_length ys x d

lemma bn_half_max_eq : bn__half_max = 2 ^ 31 := by norm_num [bn__half_max, BASE]

lemma bn_top_limb {l : List ℕ} (h : bn_wf l) :
    bn__half_max ≤ l.getD (numWords - 1) 0 ↔ 2 ^ 31 * BASE ^ 31 ≤ bnValue l := by
  have hne : l ≠ [] := by
    intro he
    have := h.1
    rw [he] at this
    simp [numWords] at this
  have hl := List.dropLast_append_getLast hne
  have hlf : l.dropLast.length = 31 := by
    rw [List.length_dropLast, h.1]
    rfl
  have hget : l.getD (numWords - 1) 0 = l.getLast hne := by
    conv_lhs => rw [← hl]
    rw [show numWords - 1 = l.dropLast.length from by rw [hlf]; rfl]
    exact bn_getD_append_length _ _ _
  have hv : bnValue l = bnValue l.dropLast + BASE ^ 31 * l.getLast hne := by
    conv_lhs => rw [← hl]
    rw [bnValue_append, hlf, bnValue_cons, bnValue_nil]
    ring
  have hvf : bnValue l.dropLast < BASE ^ 31 := by
    have hb : ∀ x ∈ l.dropLast, x < BASE := fun x hx =>
      h.2 x (List.dropLast_subset l hx)
    have := bnValue_lt hb
    rwa [hlf] at this
  rw [hget, hv, bn_half_max_eq]
  constructor
  · intro hx
    calc 2 ^ 31 * BASE ^ 31 = BASE ^ 31 * 2 ^ 31 := by ring
      _ ≤ BASE ^ 31 * l.getLast hne := Nat.mul_le_mul_left _ hx
      _ ≤ bnValue l.dropLast + BASE ^ 31 * l.getLast hne := by omega
  · intro hx
    by_contra hc
    push_neg at hc
    have : bnValue l.dropLast + BASE ^ 31 * l.getLast hne < 2 ^ 31 * BASE ^ 31 := by
      calc bnValue l.dropLast + BASE ^ 31 * l.getLast hne
          < BASE ^ 31 + BASE ^ 31 * l.getLast hne := by omega
        _ = BASE ^ 31 * (l.getLast hne + 1) := by ring
        _ ≤ BASE ^ 31 * 2 ^ 31 := Nat.mul_le_mul_left _ (by omega)
        _ = 2 ^ 31 * BASE ^ 31 := by ring
    omega

lemma bn_cap_split : CAP = 2 * (2 ^ 31 * BASE ^ 31) := by
  have : (2 : ℕ) * (2 ^ 31 * BASE ^ 31) = 2 ^ 32 * BASE ^ 31 := by ring
  rw [this, CAP, show (BASE : ℕ) = 2 ^ 32 from rfl]
  rw [← pow_succ']
  norm_num [numWords]

/-! ### Multiplication -/

/-- bn__mul_row is the inner bignum_mul loop after J of its numWords steps,
with ai the left operand limb a->array[i]. -/
def bn__mul_row (b : List ℕ) (ai i J : ℕ) : List ℕ :=
  (List.range J).foldl (fun row j =>
    if i + j < numWords then
      bignum_add (bn__lshift_word (bignum_from_int (ai * b.getD j 0)) (i + j)) row
    else row) bignum_init

/-- bn__mul_acc is the outer bignum_mul loop after I of its numWords steps. -/
def bn__mul_acc (a b : List ℕ) (I : ℕ) : List ℕ :=
  (List.range I).foldl (fun c i =>
    bignum_add c (bn__mul_row b (a.getD i 0) i numWords)) bignum_init

lemma bignum_mul_eq_acc (a b : List ℕ) :
    bignum_mul a b = bn__mul_acc a b numWords := rfl

lemma bn_getD_lt {l : List ℕ} (h : ∀ x ∈ l, x < BASE) {J : ℕ}
    (hJ : J < l.length) : l.getD J 0 < BASE := by
  have h1 : l.getD J 0 = l[J] := by
    rw [List.getD_eq_getElem?_getD, List.getElem?_eq_getElem hJ]
    rfl
  rw [h1]
  exact h _ (List.getElem_mem hJ)

lemma bn_take_succ_getD {l : List ℕ} {J : ℕ} (h : J < l.length) :
    l.take (J + 1) = l.take J ++ [l.getD J 0] := by
  rw [List.take_succ]
  congr 1
  rw [List.getElem?_eq_getElem h, List.getD_eq_getElem?_getD,
    List.getElem?_eq_getElem h]
  rfl

lemma bn__mul_row_spec {b : List ℕ} (hb : bn_wf b) {ai : ℕ} (hai : ai < BASE)
    (i : ℕ) : ∀ J, J ≤ numWords →
    bn_wf (bn__mul_row b ai i J) ∧
    bnValue (bn__mul_row b ai i J) = (ai * BASE ^ i * bnValue (b.take J)) % CAP := by
  intro J
  induction J with
  | zero =>
    intro _
    refine ⟨bignum_init_wf, ?_⟩
    simp [bn__mul_row, bignum_init_value, bnValue_nil]
  | succ J ih =>
    intro hJ
    obtain ⟨ihwf, ihv⟩ := ih (by omega)
    have hJlen : J < b.length := by rw [hb.1]; omega
    have hbJ : b.getD J 0 < BASE := bn_getD_lt hb.2 hJlen
    have hstep : bn__mul_row b ai i (J + 1)
        = if i + J < numWords then
            bignum_add (bn__lshift_word (bignum_from_int (ai * b.getD J 0)) (i + J))
              (bn__mul_row b ai i J)
          else bn__mul_row b ai i J := by
      rw [bn__mul_row, List.range_succ, List.foldl_append]
      rfl
    have htake : bnValue (b.take (J + 1))
        = bnValue (b.take J) + BASE ^ J * b.getD J 0 := by
      rw [bn_take_succ_getD hJlen, bnValue_append, List.length_take,
        min_eq_left (by omega), bnValue_cons, bnValue_nil]
      ring
    by_cases hij : i + J < numWords
    · rw [hstep, if_pos hij]
      have hprod : ai * b.getD J 0 < 2 ^ 64 := by
        calc ai * b.getD J 0 < BASE * BASE := Nat.mul_lt_mul'' hai hbJ
          _ = 2 ^ 64 := by norm_num [BASE]
      have htmpwf := bn__lshift_word_wf (bignum_from_int_wf (ai * b.getD J 0)) (i + J)
      refine ⟨bignum_add_wf htmpwf ihwf, ?_⟩
      rw [bignum_add_value htmpwf ihwf,
        bn__lshift_word_value (bignum_from_int_wf _) (i + J),
        bignum_from_int_value_small hprod, ihv]
      have harith : ai * BASE ^ i * bnValue (List.take (J + 1) b)
          = BASE ^ (i + J) * (ai * b.getD J 0)
            + ai * BASE ^ i * bnValue (List.take J b) := by
        rw [htake]
        ring
      rw [Nat.add_mod_mod, harith, Nat.mod_add_mod]
    · rw [hstep, if_neg hij]
      refine ⟨ihwf, ?_⟩
      rw [ihv, htake]
      have hpow : (BASE : ℕ) ^ i * BASE ^ J
          = BASE ^ (i + J - numWords) * CAP := by
        rw [CAP, ← pow_add, ← pow_add]
        congr 1
        omega
      have hsplit : ai * BASE ^ i * (bnValue (b.take J) + BASE ^ J * b.getD J 0)
          = ai * BASE ^ i * bnValue (b.take J)
            + (ai * b.getD J 0 * BASE ^ (i + J - numWords)) * CAP := by
        have : ai * BASE ^ i * (BASE ^ J * b.getD J 0)
            = ai * b.getD J 0 * (BASE ^ i * BASE ^ J) := by ring
        rw [mul_add, this, hpow]
        ring
      rw [hsplit, Nat.add_mul_mod_self_right]

lemma bn__mul_acc_spec {a b : List ℕ} (ha : bn_wf a) (hb : bn_wf b) :
    ∀ I, I ≤ numWords →
    bn_wf (bn__mul_acc a b I) ∧
    bnValue (bn__mul_acc a b I) = (bnValue (a.take I) * bnValue b) % CAP := by
  intro I
  induction I with
  | zero =>
    intro _
    refine ⟨bignum_init_wf, ?_⟩
    simp [bn__mul_acc, bignum_init_value, bnValue_nil]
  | succ I ih =>
    intro hI
    obtain ⟨ihwf, ihv⟩ := ih (by omega)
    have hIlen : I < a.length := by rw [ha.1]; omega
    have haI : a.getD I 0 < BASE := bn_getD_lt ha.2 hIlen
    have hstep : bn__mul_acc a b (I + 1)
        = bignum_add (bn__mul_acc a b I) (bn__mul_row b (a.getD I 0) I numWords) := by
      rw [bn__mul_acc, List.range_succ, List.foldl_append]
      rfl
    obtain ⟨hrwf, hrv⟩ := bn__mul_row_spec hb haI I numWords (le_refl _)
    have hbt : b.take numWords = b := by
      rw [← hb.1]
      exact List.take_length b
    have htake : bnValue (a.take (I + 1))
        = bnValue (a.take I) + BASE ^ I * a.getD I 0 := by
      rw [bn_take_succ_getD hIlen, bnValue_append, List.length_take,
        min_eq_left (by omega), bnValue_cons, bnValue_nil]
      ring
    rw [hstep]
    refine ⟨bignum_add_wf ihwf hrwf, ?_⟩
    rw [bignum_add_value ihwf hrwf, ihv, hrv, hbt]
    have harith : bnValue (a.take (I + 1)) * bnValue b
        = bnValue (a.take I) * bnValue b
          + a.getD I 0 * BASE ^ I * bnValue b := by
      rw [htake]
      ring
    rw [Nat.add_mod_mod, Nat.mod_add_mod, harith]

lemma bignum_mul_wf {a b : List ℕ} (ha : bn_wf a) (hb : bn_wf b) :
    bn_wf (bignum_mul a b) := by
  rw [bignum_mul_eq_acc]
  exact (bn__mul_acc_spec ha hb numWords (le_refl _)).1

set_option maxHeartbeats 1000000 in
lemma bignum_mul_value {a b : List ℕ} (ha : bn_wf a) (hb : bn_wf b) :
    bnValue (bignum_mul a b) = bnValue a * bnValue b % CAP := by
  have h := (bn__mul_acc_spec ha hb numWords (le_refl _)).2
  have h2 : a.take numWords = a := by
    rw [← ha.1]
    exact List.take_length a
  rw [h2] at h
  rw [bignum_mul_eq_acc]
  exact h

/-! ### Comparison corollaries -/

lemma bignum_cmp_ne_one_iff {a b : List ℕ} (ha : bn_wf a) (hb : bn_wf b) :
    (bignum_cmp a b ≠ 1) ↔ bnValue a ≤ bnValue b := by
  rw [bignum_cmp_spec ha hb]
  by_cases h1 : bnValue a < bnValue b
  · simp only [if_pos h1]
    constructor
    · intro _; omega
    · intro _; omega
  · by_cases h2 : bnValue b < bnValue a
    · simp only [if_neg h1, if_pos h2]
      constructor
      · intro h; omega
      · intro h
        exfalso
        omega
    · simp only [if_neg h1, if_neg h2]
      constructor
      · intro _; omega
      · intro _
        omega

lemma bignum_cmp_ne_negone_iff {a b : List ℕ} (ha : bn_wf a) (hb : bn_wf b) :
    (bignum_cmp a b ≠ -1) ↔ bnValue b ≤ bnValue a := by
  rw [bignum_cmp_spec ha hb]
  by_cases h1 : bnValue a < bnValue b
  · simp only [if_pos h1]
    constructor
    · intro h; exact absurd rfl h
    · intro h; omega
  · by_cases h2 : bnValue b < bnValue a
    · simp only [if_neg h1, if_pos h2]
      constructor
      · intro _; omega
      · intro _; omega
    · simp only [if_neg h1, if_neg h2]
      constructor
      · intro _; omega
      · intro _; omega

lemma bignum_cmp_zero_of_eq {a b : List ℕ} (ha : bn_wf a) (hb : bn_wf b)
    (h : bnValue a = bnValue b) : bignum_cmp a b = 0 := by
  rw [bignum_cmp_spec ha hb, if_neg (by omega), if_neg (by omega)]

/-! ### Division, phase one: shifting the divisor up -/

lemma bn_cap_eq : CAP = 2 ^ 1024 := by
  rw [CAP, show (BASE : ℕ) = 2 ^ 32 from rfl, ← pow_mul]
  norm_num [numWords]

lemma bn_half_cap_eq : (2 : ℕ) ^ 31 * BASE ^ 31 = 2 ^ 1023 := by
  rw [show (BASE : ℕ) = 2 ^ 32 from rfl, ← pow_mul, ← pow_add]

lemma bn__div_shift_loop_spec {a : List ℕ} (ha : bn_wf a) {B0 : ℕ} (hB0 : 0 < B0) :
    ∀ fuel j denom current, bn_wf denom → bn_wf current →
    bnValue denom = B0 * 2 ^ j → bnValue current = 2 ^ j →
    1024 - j < fuel →
    ∃ j' denom' current' ovf,
      bn__div_shift_loop fuel a denom current = .ok (denom', current', ovf) ∧
      bn_wf denom' ∧ bn_wf current' ∧
      bnValue denom' = B0 * 2 ^ j' ∧ bnValue current' = 2 ^ j' ∧
      ((ovf = false ∧ bnValue a < B0 * 2 ^ j') ∨
       (ovf = true ∧ CAP ≤ 2 * (B0 * 2 ^ j') ∧ B0 * 2 ^ j' ≤ bnValue a)) := by
  intro fuel
  induction fuel with
  | zero =>
    intro j _ _ _ _ _ _ hf
    omega
  | succ fuel ih =>
    intro j denom current hdwf hcwf hdv hcv hf
    by_cases hcmp : bignum_cmp denom a ≠ 1
    · by_cases htop : bn__half_max ≤ denom.getD (numWords - 1) 0
      · refine ⟨j, denom, current, true, ?_, hdwf, hcwf, hdv, hcv,
          Or.inr ⟨rfl, ?_, ?_⟩⟩
        · simp only [bn__div_shift_loop, if_pos hcmp, if_pos htop]
        · have h1 := (bn_top_limb hdwf).mp htop
          rw [hdv] at h1
          rw [bn_cap_split]
          omega
        · have h2 := (bignum_cmp_ne_one_iff hdwf ha).mp hcmp
          rw [hdv] at h2
          exact h2
      · push_neg at htop
        have hlt : bnValue denom < 2 ^ 31 * BASE ^ 31 := by
          rcases lt_or_le (bnValue denom) (2 ^ 31 * BASE ^ 31) with h | h
          · exact h
          · exact absurd ((bn_top_limb hdwf).mpr h) (by omega)
        have h2d : 2 * bnValue denom < CAP := by
          rw [bn_cap_split]
          omega
        have hcd : bnValue current ≤ bnValue denom := by
          rw [hdv, hcv]
          exact Nat.le_mul_of_pos_left _ hB0
        have h2c : 2 * bnValue current < CAP := by omega
        have hdv' : bnValue (bn__lshift_one_bit denom) = B0 * 2 ^ (j + 1) := by
          rw [bn__lshift_one_bit_exact hdwf h2d, hdv]
          ring
        have hcv' : bnValue (bn__lshift_one_bit current) = 2 ^ (j + 1) := by
          rw [bn__lshift_one_bit_exact hcwf h2c, hcv]
          ring
        have hjb : j < 1023 := by
          have h1 : (2 : ℕ) ^ j ≤ B0 * 2 ^ j := Nat.le_mul_of_pos_left _ hB0
          have h3 : (2 : ℕ) ^ j < 2 ^ 1023 := by
            rw [← bn_half_cap_eq]
            omega
          exact (Nat.pow_lt_pow_iff_right (by norm_num)).mp h3
        obtain ⟨j', d', c', ovf, heq, hdwf', hcwf', hdv'', hcv'', hcase⟩ :=
          ih (j + 1) (bn__lshift_one_bit denom) (bn__lshift_one_bit current)
            (bn__lshift_one_bit_wf hdwf) (bn__lshift_one_bit_wf hcwf)
            hdv' hcv' (by omega)
        refine ⟨j', d', c', ovf, ?_, hdwf', hcwf', hdv'', hcv'', hcase⟩
        simp only [bn__div_shift_loop, if_pos hcmp, if_neg (show ¬ bn__half_max ≤
          denom.getD (numWords - 1) 0 from by omega)]
        exact heq
    · refine ⟨j, denom, current, false, ?_, hdwf, hcwf, hdv, hcv,
        Or.inl ⟨rfl, ?_⟩⟩
      · simp only [bn__div_shift_loop, if_neg hcmp]
      · have h1 : ¬ (bnValue denom ≤ bnValue a) := fun hle =>
          hcmp ((bignum_cmp_ne_one_iff hdwf ha).mpr hle)
        rw [hdv] at h1
        omega

/-! ### Division, phase two: trial subtraction -/

lemma bn__div_sub_loop_zero {tmp denom current answer : List ℕ}
    (hz : bnValue current = 0) :
    ∀ fuel, 0 < fuel → bn__div_sub_loop fuel tmp denom current answer = .ok answer := by
  intro fuel hf
  cases fuel with
  | zero => omega
  | succ f =>
    have h1 : bignum_is_zero current = true := bignum_is_zero_iff.mpr hz
    simp only [bn__div_sub_loop, if_pos h1]

lemma bn__or_pow {answer current : List ℕ} (hawf : bn_wf answer)
    (hcwf : bn_wf current) {K : ℕ} (hcv : bnValue current = 2 ^ K)
    (hav : bnValue answer % 2 ^ (K + 1) = 0) :
    bnValue (bignum_or answer current) = bnValue answer + 2 ^ K := by
  rw [bignum_or_value (hawf.1.trans hcwf.1.symm) hawf.2 hcwf.2, hcv,
    bn_lor_two_pow hav]

lemma bn__div_sub_loop_spec {B0 : ℕ} (hB0 : 0 < B0) :
    ∀ k fuel tmp denom current answer,
    bn_wf tmp → bn_wf denom → bn_wf current → bn_wf answer →
    bnValue denom = B0 * 2 ^ k → bnValue current = 2 ^ k →
    bnValue tmp < B0 * 2 ^ (k + 1) →
    bnValue answer % 2 ^ (k + 1) = 0 →
    k + 1 < fuel →
    ∃ ans, bn__div_sub_loop fuel tmp denom current answer = .ok ans ∧
      bn_wf ans ∧ bnValue ans = bnValue answer + bnValue tmp / B0 := by
  intro k
  induction k with
  | zero =>
    intro fuel tmp denom current answer htwf hdwf hcwf hawf hdv hcv htv hav hf
    obtain ⟨f, rfl⟩ : ∃ f, fuel = f + 1 := ⟨fuel - 1, by omega⟩
    have hnz : ¬ bignum_is_zero current = true := by
      rw [bignum_is_zero_iff, hcv]
      norm_num
    have hcz : bnValue (bn__rshift_one_bit current) = 0 := by
      rw [bn__rshift_one_bit_value hcwf, hcv]
      norm_num
    have hrec := @bn__div_sub_loop_zero (bignum_sub tmp denom)
      (bn__rshift_one_bit denom) (bn__rshift_one_bit current)
      (bignum_or answer current) hcz f (by omega)
    have hrec2 := @bn__div_sub_loop_zero tmp
      (bn__rshift_one_bit denom) (bn__rshift_one_bit current) answer
      hcz f (by omega)
    simp only [bn__div_sub_loop, if_neg hnz]
    by_cases hge : bignum_cmp tmp denom ≠ -1
    · rw [if_pos hge, hrec]
      have hvd : bnValue denom ≤ bnValue tmp :=
        (bignum_cmp_ne_negone_iff htwf hdwf).mp hge
      refine ⟨_, rfl, bignum_or_wf hawf hcwf, ?_⟩
      rw [bn__or_pow hawf hcwf hcv hav]
      have hdiv : bnValue tmp / B0 = 1 := by
        rw [hdv] at hvd
        have h1 : 1 ≤ bnValue tmp / B0 := by
          rw [Nat.le_div_iff_mul_le hB0]
          omega
        have h2 : bnValue tmp / B0 < 2 := by
          rw [Nat.div_lt_iff_lt_mul hB0]
          omega
        omega
      rw [hdiv]
      norm_num
    · rw [if_neg hge, hrec2]
      have hvd : bnValue tmp < bnValue denom := by
        have h1 : ¬ (bnValue denom ≤ bnValue tmp) := fun hle =>
          hge ((bignum_cmp_ne_negone_iff htwf hdwf).mpr hle)
        omega
      refine ⟨_, rfl, hawf, ?_⟩
      have hdiv : bnValue tmp / B0 = 0 := by
        apply Nat.div_eq_of_lt
        rw [hdv] at hvd
        omega
      rw [hdiv]
      norm_num
  | succ k ih =>
    intro fuel tmp denom current answer htwf hdwf hcwf hawf hdv hcv htv hav hf
    obtain ⟨f, rfl⟩ : ∃ f, fuel = f + 1 := ⟨fuel - 1, by omega⟩
    have hnz : ¬ bignum_is_zero current = true := by
      rw [bignum_is_zero_iff, hcv]
      positivity
    have hcv' : bnValue (bn__rshift_one_bit current) = 2 ^ k := by
      rw [bn__rshift_one_bit_value hcwf, hcv, pow_succ]
      omega
    have hdv' : bnValue (bn__rshift_one_bit denom) = B0 * 2 ^ k := by
      rw [bn__rshift_one_bit_value hdwf, hdv, pow_succ]
      have : B0 * (2 ^ k * 2) = B0 * 2 ^ k * 2 := by ring
      rw [this]
      omega
    have hcwf' := bn__rshift_one_bit_wf hcwf
    have hdwf' := bn__rshift_one_bit_wf hdwf
    simp only [bn__div_sub_loop, if_neg hnz]
    by_cases hge : bignum_cmp tmp denom ≠ -1
    · rw [if_pos hge]
      have hvd : bnValue denom ≤ bnValue tmp :=
        (bignum_cmp_ne_negone_iff htwf hdwf).mp hge
      rw [hdv] at hvd
      have hsub : bnValue (bignum_sub tmp denom)
          = bnValue tmp - B0 * 2 ^ (k + 1) := by
        rw [bignum_sub_value_exact htwf hdwf (by omega), hdv]
      have hor : bnValue (bignum_or answer current)
          = bnValue answer + 2 ^ (k + 1) :=
        bn__or_pow hawf hcwf hcv hav
      have hdvd : (2 : ℕ) ^ (k + 1) ∣ bnValue answer := by
        have h1 : (2 : ℕ) ^ (k + 2) ∣ bnValue answer := Nat.dvd_of_mod_eq_zero hav
        exact dvd_trans (pow_dvd_pow 2 (by omega)) h1
      have hor_mod : bnValue (bignum_or answer current) % 2 ^ (k + 1) = 0 := by
        rw [hor]
        obtain ⟨t, ht⟩ := hdvd
        rw [ht, show (2:ℕ) ^ (k+1) * t + 2 ^ (k+1) = 2 ^ (k+1) * (t + 1) from by ring,
          Nat.mul_mod_right]
      have e2 : B0 * 2 ^ (k + 1 + 1) = 2 * (B0 * 2 ^ (k + 1)) := by ring
      have e3 : B0 * 2 ^ (k + 1) = 2 * (B0 * 2 ^ k) := by ring
      obtain ⟨ans, hend, hanswf, hansv⟩ := ih f (bignum_sub tmp denom)
        (bn__rshift_one_bit denom) (bn__rshift_one_bit current)
        (bignum_or answer current) (bignum_sub_wf htwf hdwf) hdwf' hcwf'
        (bignum_or_wf hawf hcwf) hdv' hcv'
        (by rw [hsub]; omega) hor_mod (by omega)
      refine ⟨ans, hend, hanswf, ?_⟩
      rw [hansv, hor, hsub]
      have h1 : 2 ^ (k + 1) ≤ bnValue tmp / B0 := by
        rw [Nat.le_div_iff_mul_le hB0]
        calc 2 ^ (k + 1) * B0 = B0 * 2 ^ (k + 1) := by ring
          _ ≤ bnValue tmp := hvd
      have h2 : (bnValue tmp - B0 * 2 ^ (k + 1)) / B0
          = bnValue tmp / B0 - 2 ^ (k + 1) := Nat.sub_mul_div _ _ _ hvd
      omega
    · rw [if_neg hge]
      have hvd : bnValue tmp < bnValue denom := by
        have h1 : ¬ (bnValue denom ≤ bnValue tmp) := fun hle =>
          hge ((bignum_cmp_ne_negone_iff htwf hdwf).mpr hle)
        omega
      rw [hdv] at hvd
      have hav' : bnValue answer % 2 ^ (k + 1) = 0 := by
        have h1 : (2 : ℕ) ^ (k + 2) ∣ bnValue answer := Nat.dvd_of_mod_eq_zero hav
        obtain ⟨t, ht⟩ := dvd_trans (pow_dvd_pow 2 (show k + 1 ≤ k + 2 from by omega)) h1
        rw [ht, Nat.mul_mod_right]
      have e2 : B0 * 2 ^ (k + 1 + 1) = 2 * (B0 * 2 ^ (k + 1)) := by ring
      have e3 : B0 * 2 ^ (k + 1) = 2 * (B0 * 2 ^ k) := by ring
      obtain ⟨ans, hend, hanswf, hansv⟩ := ih f tmp
        (bn__rshift_one_bit denom) (bn__rshift_one_bit current) answer
        htwf hdwf' hcwf' hawf hdv' hcv' (by omega) hav' (by omega)
      exact ⟨ans, hend, hanswf, hansv⟩

/-! ### Division and divmod -/

lemma bignum_div_spec {a b : List ℕ} (ha : bn_wf a) (hb : bn_wf b)
    (hz : 0 < bnValue b) :
    ∃ q, bignum_div a b = .ok q ∧ bn_wf q ∧ bnValue q = bnValue a / bnValue b := by
  obtain ⟨j', denom', cur', ovf, heq, hdwf, hcwf, hdv, hcv, hcase⟩ :=
    bn__div_shift_loop_spec ha hz bn__div_fuel 0 b (bignum_from_int 1) hb
      (bignum_from_int_wf 1) (by simp)
      (by rw [bignum_from_int_value_small (by norm_num)]; norm_num)
      (by norm_num [bn__div_fuel])
  have hfuel : bn__div_fuel = 1100 := rfl
  have hj'lt : j' < 1024 := by
    have h1 : bnValue b * 2 ^ j' < CAP := by
      rw [← hdv]
      exact bn_wf_value_lt hdwf
    have h2 : (2 : ℕ) ^ j' ≤ bnValue b * 2 ^ j' := Nat.le_mul_of_pos_left _ hz
    have h3 : (2 : ℕ) ^ j' < 2 ^ 1024 := by
      rw [← bn_cap_eq]
      omega
    exact (Nat.pow_lt_pow_iff_right (by norm_num)).mp h3
  have hstep : bignum_div a b
      = bn__div_sub_loop bn__div_fuel a
          (if !ovf then bn__rshift_one_bit denom' else denom')
          (if !ovf then bn__rshift_one_bit cur' else cur')
          bignum_init := by
    rw [bignum_div, heq]
    rfl
  rcases hcase with ⟨hovf, hlt⟩ | ⟨hovf, hcap, hle⟩
  · subst hovf
    simp only [Bool.not_false, if_pos] at hstep
    cases j' with
    | zero =>
      have hcz : bnValue (bn__rshift_one_bit cur') = 0 := by
        rw [bn__rshift_one_bit_value hcwf, hcv]
        norm_num
      refine ⟨bignum_init, ?_, bignum_init_wf, ?_⟩
      · rw [hstep]
        exact bn__div_sub_loop_zero hcz _ (by norm_num [bn__div_fuel])
      · rw [bignum_init_value]
        symm
        apply Nat.div_eq_of_lt
        simpa using hlt
    | succ k =>
      have hcv' : bnValue (bn__rshift_one_bit cur') = 2 ^ k := by
        rw [bn__rshift_one_bit_value hcwf, hcv, pow_succ]
        omega
      have hdv' : bnValue (bn__rshift_one_bit denom') = bnValue b * 2 ^ k := by
        rw [bn__rshift_one_bit_value hdwf, hdv, pow_succ]
        have h4 : bnValue b * (2 ^ k * 2) = bnValue b * 2 ^ k * 2 := by ring
        rw [h4]
        omega
      obtain ⟨ans, hend, hanswf, hansv⟩ :=
        bn__div_sub_loop_spec hz k bn__div_fuel a
          (bn__rshift_one_bit denom') (bn__rshift_one_bit cur') bignum_init
          ha (bn__rshift_one_bit_wf hdwf) (bn__rshift_one_bit_wf hcwf)
          bignum_init_wf hdv' hcv' hlt
          (by rw [bignum_init_value]; exact Nat.zero_mod _) (by omega)
      refine ⟨ans, ?_, hanswf, ?_⟩
      · rw [hstep]
        exact hend
      · rw [hansv, bignum_init_value]
        omega
  · subst hovf
    simp only [Bool.not_true, if_neg] at hstep
    have hva : bnValue a < bnValue b * 2 ^ (j' + 1) := by
      have h1 : bnValue a < CAP := bn_wf_value_lt ha
      have h2 : 2 * (bnValue b * 2 ^ j') = bnValue b * 2 ^ (j' + 1) := by ring
      omega
    obtain ⟨ans, hend, hanswf, hansv⟩ :=
      bn__div_sub_loop_spec hz j' bn__div_fuel a denom' cur' bignum_init
        ha hdwf hcwf bignum_init_wf hdv hcv hva
        (by rw [bignum_init_value]; exact Nat.zero_mod _) (by omega)
    refine ⟨ans, ?_, hanswf, ?_⟩
    · rw [hstep]
      exact hend
    · rw [hansv, bignum_init_value]
      omega

lemma bignum_divmod_spec {a b : List ℕ} (ha : bn_wf a) (hb : bn_wf b)
    (hz : 0 < bnValue b) :
    ∃ q r, bignum_divmod a b = .ok (q, r) ∧ bn_wf q ∧ bn_wf r ∧
      bnValue q = bnValue a / bnValue b ∧ bnValue r = bnValue a % bnValue b := by
  obtain ⟨q, hq, hqwf, hqv⟩ := bignum_div_spec ha hb hz
  have hstep : bignum_divmod a b = .ok (q, bignum_sub a (bignum_mul q b)) := by
    rw [bignum_divmod, hq]
    rfl
  have hmulv : bnValue (bignum_mul q b) = bnValue a / bnValue b * bnValue b := by
    rw [bignum_mul_value hqwf hb, hqv, Nat.mod_eq_of_lt]
    exact lt_of_le_of_lt (Nat.div_mul_le_self _ _) (bn_wf_value_lt ha)
  have hle : bnValue (bignum_mul q b) ≤ bnValue a := by
    rw [hmulv]
    exact Nat.div_mul_le_self _ _
  have hsubv : bnValue (bignum_sub a (bignum_mul q b))
      = bnValue a % bnValue b := by
    rw [bignum_sub_value_exact ha (bignum_mul_wf hqwf hb) hle, hmulv]
    have h1 := Nat.div_add_mod (bnValue a) (bnValue b)
    have h2 : bnValue a / bnValue b * bnValue b
        = bnValue b * (bnValue a / bnValue b) := by ring
    omega
  exact ⟨q, _, hstep, hqwf, bignum_sub_wf ha (bignum_mul_wf hqwf hb), hqv, hsubv⟩

/-! ### Helper facts for the claims -/

lemma bignum_mod_eq {a b : List ℕ} {q r : List ℕ}
    (h : bignum_divmod a b = .ok (q, r)) : bignum_mod a b = .ok r := by
  rw [bignum_mod, h]
  rfl

lemma bignum_div_of_divmod {a b : List ℕ} {q r : List ℕ}
    (h : bignum_divmod a b = .ok (q, r)) : bignum_div a b = .ok q := by
  cases hdiv : bignum_div a b with
  | error e =>
    have h2 : bignum_divmod a b = .error e := by
      rw [bignum_divmod, hdiv]
      rfl
    rw [h2] at h
    cases h
  | ok q' =>
    have h2 : bignum_divmod a b = .ok (q', bignum_sub a (bignum_mul q' b)) := by
      rw [bignum_divmod, hdiv]
      rfl
    rw [h2] at h
    cases h
    rfl

/-! ### The claims -/

/-- Claim C1: for every pair of well-formed BigUint values a and b with b
non-zero, bignum_divmod produces a quotient q and a remainder r whose exact
semantic values (Sigma limbs[i] * BASE^i) satisfy q * b + r = a and r < b;
bignum_div and bignum_mod return the respective components of the same pair. -/
theorem claim1_divmod_correct (a b : List ℕ) (ha : bn_wf a) (hb : bn_wf b)
    (hz : bnValue b ≠ 0) :
    ∃ q r, bignum_divmod a b = .ok (q, r) ∧
      bnValue q * bnValue b + bnValue r = bnValue a ∧
      bnValue r < bnValue b ∧
      bignum_div a b = .ok q ∧ bignum_mod a b = .ok r := by
  have hpos : 0 < bnValue b := Nat.pos_of_ne_zero hz
  obtain ⟨q, r, hqr, hqwf, hrwf, hqv, hrv⟩ := bignum_divmod_spec ha hb hpos
  refine ⟨q, r, hqr, ?_, ?_, bignum_div_of_divmod hqr, bignum_mod_eq hqr⟩
  · rw [hqv, hrv]
    have h1 := Nat.div_add_mod (bnValue a) (bnValue b)
    have h2 : bnValue a / bnValue b * bnValue b
        = bnValue b * (bnValue a / bnValue b) := by ring
    omega
  · rw [hrv]
    exact Nat.mod_lt _ hpos

/-- Claim C1 witness: divmod of 17 by 5 concretely satisfies the contract. -/
theorem claim1_witness :
    ∃ q r, bignum_divmod (bignum_from_int 17) (bignum_from_int 5) = .ok (q, r) ∧
      bnValue q * bnValue (bignum_from_int 5) + bnValue r
        = bnValue (bignum_from_int 17) ∧
      bnValue r < bnValue (bignum_from_int 5) ∧
      bignum_div (bignum_from_int 17) (bignum_from_int 5) = .ok q ∧
      bignum_mod (bignum_from_int 17) (bignum_from_int 5) = .ok r :=
  claim1_divmod_correct _ _ (by decide) (by decide) (by decide)

/-- Claim C2 counterexample: bignum_add conveys no overflow indicator at all —
the overflowing call add(max, 1) writes exactly the same output array as the
non-overflowing call add(0, 0), and the output array is the call's entire
observable effect, so the caller cannot learn that a carry escaped the most
significant limb. -/
theorem claim2_counterexample :
    bignum_add (List.replicate 32 (2 ^ 32 - 1)) (bignum_from_int 1)
      = bignum_add bignum_init bignum_init := by decide

/-- Claim C2 amended: no arithmetic operation reports overflow to its caller —
the C functions are void and there is no overflow flag anywhere; bignum_add
computes a final carry, discards it, and returns only the wrapped sum modulo
BASE ^ capacity. -/
theorem claim2_amended (a b : List ℕ) (ha : bn_wf a) (hb : bn_wf b) :
    bnValue (bignum_add a b) = (bnValue a + bnValue b) % CAP :=
  bignum_add_value ha hb

/-- Claim C2 witness: the amended claim at 3 + 4. -/
theorem claim2_witness :
    bnValue (bignum_add (bignum_from_int 3) (bignum_from_int 4))
      = (bnValue (bignum_from_int 3) + bnValue (bignum_from_int 4)) % CAP :=
  claim2_amended _ _ (by decide) (by decide)

/-- Claim C4: add and sub both wrap modulo BASE ^ capacity — value(add a b) =
(value a + value b) mod CAP and value(sub a b) = (value a - value b) mod CAP
over the integers — and consequently sub(add(a, b), b) = a for all well-formed
inputs, with or without overflow. -/
theorem claim4_add_sub_inverse (a b : List ℕ) (ha : bn_wf a) (hb : bn_wf b) :
    bignum_sub (bignum_add a b) b = a ∧
    bnValue (bignum_add a b) = (bnValue a + bnValue b) % CAP ∧
    (bnValue (bignum_sub a b) : ℤ)
      = ((bnValue a : ℤ) - bnValue b) % (CAP : ℤ) := by
  refine ⟨?_, bignum_add_value ha hb, bignum_sub_value_int ha hb⟩
  have hswf := bignum_sub_wf (bignum_add_wf ha hb) hb
  apply bnValue_inj hswf.2 ha.2 (hswf.1.trans ha.1.symm)
  have h1 := bignum_sub_value_int (bignum_add_wf ha hb) hb
  rw [bignum_add_value ha hb] at h1
  have hA : bnValue a < CAP := bn_wf_value_lt ha
  have hCAP : (0 : ℤ) < (CAP : ℤ) := by
    exact_mod_cast (show 0 < CAP from by rw [bn_cap_eq]; positivity)
  have hcast : (((bnValue a + bnValue b) % CAP : ℕ) : ℤ)
      = ((bnValue a : ℤ) + bnValue b) % (CAP : ℤ) := by
    push_cast
    ring
  rw [hcast] at h1
  have g1 : (((bnValue a : ℤ) + bnValue b) % (CAP : ℤ) - bnValue b) % (CAP : ℤ)
      = ((bnValue a : ℤ) + bnValue b - bnValue b) % (CAP : ℤ) :=
    Int.ModEq.sub_right _ (Int.emod_emod_of_dvd _ (dvd_refl _))
  rw [g1] at h1
  have g2 : (bnValue a : ℤ) + bnValue b - bnValue b = (bnValue a : ℤ) := by ring
  rw [g2, Int.emod_eq_of_lt (by exact_mod_cast Nat.zero_le (bnValue a))
    (by exact_mod_cast hA)] at h1
  exact_mod_cast h1

/-- Claim C4 witness: the claim at 100 and 42. -/
theorem claim4_witness :
    bignum_sub (bignum_add (bignum_from_int 100) (bignum_from_int 42))
        (bignum_from_int 42) = bignum_from_int 100 ∧
    bnValue (bignum_add (bignum_from_int 100) (bignum_from_int 42))
      = (bnValue (bignum_from_int 100) + bnValue (bignum_from_int 42)) % CAP ∧
    (bnValue (bignum_sub (bignum_from_int 100) (bignum_from_int 42)) : ℤ)
      = ((bnValue (bignum_from_int 100) : ℤ) - bnValue (bignum_from_int 42))
        % (CAP : ℤ) :=
  claim4_add_sub_inverse _ _ (by decide) (by decide)

lemma bn__cmp_loop_zeros_ne_one : ∀ (n : ℕ) (s : List ℕ),
    bn__cmp_loop (List.replicate n 0) s ≠ 1
  | 0, s => by simp [bn__cmp_loop]
  | n + 1, [] => by simp [List.replicate_succ, bn__cmp_loop]
  | n + 1, y :: ys => by
    simp only [List.replicate_succ, bn__cmp_loop]
    by_cases hy : 0 < y
    · rw [if_neg (by omega), if_pos hy]
      norm_num
    · rw [if_neg (by omega), if_neg hy]
      exact bn__cmp_loop_zeros_ne_one n ys

lemma bn__lshift_one_bit_zeros : bn__lshift_one_bit bignum_init = bignum_init := by
  decide

lemma bn__div_shift_loop_zero_denom :
    ∀ (fuel : ℕ) (a current : List ℕ),
      bn__div_shift_loop fuel a bignum_init current = .error .fuel
  | 0, _, _ => rfl
  | fuel + 1, a, current => by
    have h1 : bignum_cmp bignum_init a ≠ 1 := by
      rw [bignum_cmp, show (bignum_init : List ℕ).reverse = bignum_init from by decide]
      exact bn__cmp_loop_zeros_ne_one numWords a.reverse
    have h2 : ¬ bn__half_max ≤ (bignum_init : List ℕ).getD (numWords - 1) 0 := by
      decide
    simp only [bn__div_shift_loop, if_pos h1, if_neg h2, bn__lshift_one_bit_zeros]
    exact bn__div_shift_loop_zero_denom fuel a _

/-- Claim C3 counterexample: dividing 17 by the zero value does not abort (no
zero-divisor bn_assert exists in bignum_div) and does not return: the
divisor-shifting loop is still running when the model's entire fuel is spent,
so the call never produces a value at the call site. -/
theorem claim3_counterexample :
    bignum_div (bignum_from_int 17) bignum_init = Except.error BnErr.fuel := by
  rw [bignum_div, bn__div_shift_loop_zero_denom]
  rfl

/-- Claim C3 amended: a zero divisor is not checked — bn_assert only guards
null pointers — and bignum_div neither aborts nor returns: its first loop
runs forever because a zero denom never exceeds a and never reaches
half_max.  The same divergence reaches bignum_divmod and bignum_mod, which
call bignum_div first.  (The shared helper lemma shows the loop fails at
every fuel bound, i.e. this is true non-termination, not fuel shortage.) -/
theorem claim3_div_zero_diverges (a : List ℕ) :
    bignum_div a bignum_init = Except.error BnErr.fuel ∧
    bignum_divmod a bignum_init = Except.error BnErr.fuel ∧
    bignum_mod a bignum_init = Except.error BnErr.fuel := by
  have h := bn__div_shift_loop_zero_denom bn__div_fuel a (bignum_from_int 1)
  refine ⟨?_, ?_, ?_⟩
  · rw [bignum_div, h]
    rfl
  · rw [bignum_divmod, bignum_div, h]
    rfl
  · rw [bignum_mod, bignum_divmod, bignum_div, h]
    rfl

lemma bn_getD_replicate (n i : ℕ) : (List.replicate n (0 : ℕ)).getD i 0 = 0 := by
  rw [List.getD_eq_getElem?_getD]
  rcases lt_or_le i n with h | h
  · rw [List.getElem?_eq_getElem (by simpa using h)]
    simp [List.getElem_replicate]
  · rw [List.getElem?_eq_none (by simpa using h)]
    rfl

lemma bignum_from_int_zero : bignum_from_int 0 = bignum_init := by decide

lemma bignum_add_init_init : bignum_add bignum_init bignum_init = bignum_init := by
  decide

lemma bn__lshift_word_zeros (k : ℕ) : bn__lshift_word bignum_init k = bignum_init := by
  rw [bn__lshift_word, bignum_init, List.take_replicate, ← List.replicate_add]
  congr 1
  have h : numWords = 32 := rfl
  omega

lemma bn_foldl_fixed {α : Type} (f : List ℕ → α → List ℕ) (z : List ℕ)
    (h : ∀ x, f z x = z) : ∀ l : List α, l.foldl f z = z
  | [] => rfl
  | x :: xs => by
    rw [List.foldl_cons, h]
    exact bn_foldl_fixed f z h xs

lemma bn__mul_alias_eq_init (a b : List ℕ) : bignum_mul_alias a b = bignum_init := by
  rw [bignum_mul_alias]
  apply bn_foldl_fixed
  intro i
  have hrow : (List.range numWords).foldl (fun row j =>
      if i + j < numWords then
        bignum_add (bn__lshift_word (bignum_from_int
          (bignum_init.getD i 0 * b.getD j 0)) (i + j)) row
      else row) bignum_init = bignum_init := by
    apply bn_foldl_fixed
    intro j
    by_cases hij : i + j < numWords
    · rw [if_pos hij, show bignum_init.getD i 0 = 0 from bn_getD_replicate _ _,
        zero_mul, bignum_from_int_zero, bn__lshift_word_zeros,
        bignum_add_init_init]
    · rw [if_neg hij]
  rw [hrow, bignum_add_init_init]

set_option maxRecDepth 100000 in
/-- Claim C5 counterexample: bignum_mul called with its output aliasing the
left operand (the in-place call mul(a, b, a)) does not compute the same
result as bignum_mul into a distinct output: at a = 2, b = 3 the aliased call
yields the zero array while the distinct-output call yields 6. -/
theorem claim5_counterexample :
    bignum_mul_alias (bignum_from_int 2) (bignum_from_int 3)
      ≠ bignum_mul (bignum_from_int 2) (bignum_from_int 3) := by
  rw [bn__mul_alias_eq_init]
  decide

/-- Claim C5 amended: not every operation tolerates output aliasing.
bignum_mul zeroes its output — and with it the aliased input — before any
limb of that input is read, so mul(a, b, a) always produces the zero array,
whatever a and b hold (and divmod(a, b, a, d), which overwrites a with the
quotient before the final subtraction reads it, corrupts the remainder the
same way). -/
theorem claim5_mul_alias_zero (a b : List ℕ) :
    bignum_mul_alias a b = bignum_init :=
  bn__mul_alias_eq_init a b

lemma bn__from_string_loop_oob (str : List ℕ) :
    ∀ (cnt i j : ℕ) (arr : List ℕ), numWords < j + cnt → 0 < cnt →
      bn__from_string_loop str cnt i j arr = .error .ub
  | 0, i, j, arr, h, hc => by omega
  | cnt + 1, i, j, arr, h, hc => by
    simp only [bn__from_string_loop]
    by_cases hj : j < numWords
    · rw [if_pos hj]
      have hnw : numWords = 32 := rfl
      exact bn__from_string_loop_oob str cnt (i - 8) (j + 1) _ (by omega) (by omega)
    · rw [if_neg hj]

lemma bn_getD_take {l : List ℕ} {n k : ℕ} (h : k < n) :
    (l.take n).getD k 0 = l.getD k 0 := by
  rw [List.getD_eq_getElem?_getD, List.getD_eq_getElem?_getD, List.getElem?_take]
  rw [if_pos h]

lemma bn__parse_word_take (str : List ℕ) {n i : ℕ} (h : i + 8 ≤ n) :
    bn__parse_word (str.take n) i = bn__parse_word str i := by
  have hq : ∀ q : ℕ, q < 8 → (str.take n).getD (i + q) 0 = str.getD (i + q) 0 :=
    fun q hq => bn_getD_take (by omega)
  simp only [bn__parse_word, show List.range 8 = [0, 1, 2, 3, 4, 5, 6, 7] from rfl,
    List.foldl_cons, List.foldl_nil]
  rw [hq 0 (by norm_num), hq 1 (by norm_num), hq 2 (by norm_num),
    hq 3 (by norm_num), hq 4 (by norm_num), hq 5 (by norm_num),
    hq 6 (by norm_num), hq 7 (by norm_num)]

lemma bn__from_string_loop_take (str : List ℕ) (n : ℕ) :
    ∀ (cnt i j : ℕ) (arr : List ℕ), i + 8 = 8 * cnt → 8 * cnt ≤ n →
      bn__from_string_loop (str.take n) cnt i j arr
        = bn__from_string_loop str cnt i j arr
  | 0, _, _, _, _, _ => rfl
  | cnt + 1, i, j, arr, hi, hn => by
    simp only [bn__from_string_loop]
    rw [bn__parse_word_take str (show i + 8 ≤ n from by omega)]
    by_cases hj : j < numWords
    · rw [if_pos hj, if_pos hj]
      cases cnt with
      | zero => rfl
      | succ c =>
        exact bn__from_string_loop_take str n (c + 1) (i - 8) (j + 1) _
          (by omega) (by omega)
    · rw [if_neg hj, if_neg hj]

/-- Claim C6 counterexample: decoding a 264-character hex string — longer than
the 2 * word_size * array_size = 256 characters of capacity — does not set
any Overflow flag (none exists) and does not produce a truncated value: the
parse loop stores through limb index 32, past the end of the array, which is
undefined behaviour, so the call has no defined result at all. -/
theorem claim6_counterexample :
    bignum_from_string (List.replicate 264 48) 264 = Except.error BnErr.ub := by
  rfl

/-- Claim C6 amended: there is no Overflow indicator; a hex string longer than
256 characters (with nbytes positive and a multiple of 8, as the bn_asserts
require) makes bignum_from_string store past the end of the limb array —
undefined behaviour instead of a truncated value — and the function never
reads the string beyond the declared nbytes bound: its result on any string
equals its result on the first nbytes characters alone. -/
theorem claim6_amended :
    (∀ (str : List ℕ) (nbytes : ℕ), 0 < nbytes → nbytes % 8 = 0 →
      256 < nbytes → bignum_from_string str nbytes = .error .ub) ∧
    (∀ (str : List ℕ) (nbytes : ℕ),
      bignum_from_string (str.take nbytes) nbytes
        = bignum_from_string str nbytes) := by
  constructor
  · intro str n hpos h8 hbig
    rw [bignum_from_string, if_neg (by omega), if_neg (by omega),
      if_neg (by omega)]
    have hnw : numWords = 32 := rfl
    apply bn__from_string_loop_oob
    · have h33 : 33 ≤ n / 8 := by omega
      omega
    · omega
  · intro str n
    rw [bignum_from_string, bignum_from_string]
    by_cases h0 : n = 0
    · rw [if_pos h0, if_pos h0]
    · rw [if_neg h0, if_neg h0]
      by_cases h2 : n % 2 ≠ 0
      · rw [if_pos h2, if_pos h2]
      · rw [if_neg h2, if_neg h2]
        by_cases h8 : n % 8 ≠ 0
        · rw [if_pos h8, if_pos h8]
        · rw [if_neg h8, if_neg h8]
          push_neg at h8
          apply bn__from_string_loop_take
          · omega
          · omega

/-- Claim C6 witness: the amended claim's first part at a concrete
272-character string. -/
theorem claim6_witness :
    bignum_from_string (List.replicate 272 49) 272 = Except.error BnErr.ub :=
  claim6_amended.1 _ 272 (by norm_num) (by norm_num) (by norm_num)

/-- Claim C7 counterexample: the 64-bit round trip fails — bignum_to_int
returns only limb 0 (bn_word_size = 4 accumulates just n->array[0] into a
32-bit int), so from_int of 2^32 followed by to_int yields 0, not 2^32, and
no Overflow is raised because no overflow indicator exists. -/
theorem claim7_counterexample :
    bignum_to_int (bignum_from_int (2 ^ 32)) ≠ ((2 : ℤ) ^ 32) := by decide

/-- Claim C7 amended: bignum_from_int stores the low and high 32-bit halves
of its 64-bit argument in limbs 0 and 1 (value x mod 2^64), but bignum_to_int
reads back only limb 0 as a native int, so the round trip returns x exactly
when x < 2^31; higher limbs are ignored and no Overflow indicator exists. -/
theorem claim7_amended (x : ℕ) :
    bnValue (bignum_from_int x) = x % 2 ^ 64 ∧
    (x < 2 ^ 31 → bignum_to_int (bignum_from_int x) = (x : ℤ)) := by
  refine ⟨bignum_from_int_value x, ?_⟩
  intro hx
  have hxB : x < BASE := lt_trans hx (by norm_num [BASE])
  have h1 : (bignum_from_int x).getD 0 0 = x % BASE := rfl
  simp only [bignum_to_int, h1]
  rw [Nat.mod_mod_of_dvd x (dvd_refl BASE), Nat.mod_eq_of_lt hxB, if_pos hx]

/-- Claim C7 witness: the amended claim at x = 5. -/
theorem claim7_witness :
    bnValue (bignum_from_int 5) = 5 % 2 ^ 64 ∧
    bignum_to_int (bignum_from_int 5) = ((5 : ℕ) : ℤ) :=
  ⟨(claim7_amended 5).1, (claim7_amended 5).2 (by norm_num)⟩

/-- Claim C8, code evaluation at a failing input: rendering a value whose
top limb is 10 into a zero-character-filled buffer produces text whose first
character is byte 107, the letter k — not a hex digit — because bn__hexlo
maps a digit value q ≥ 10 to q + the code of the letter a instead of the
letter a + (q - 10), and for 32-bit limbs only six of the eight hex
characters of each limb are ever written; decoding such text cannot recover
the value, so the hex round trip of the claim fails. -/
theorem claim8_to_string_eval :
    (bignum_to_string (List.replicate 31 0 ++ [10]) (List.replicate 64 48) 10).map
      (fun l => l.headD 0) = Except.ok 107 := by
  rfl

lemma bn__lshift_bits_go_zeros (r : ℕ) : ∀ n,
    bn__lshift_bits_go (List.replicate n 0) 0 r = List.replicate n 0
  | 0 => rfl
  | n + 1 => by
    simp only [List.replicate_succ, bn__lshift_bits_go]
    congr 1
    · simp [Nat.zero_shiftLeft, Nat.zero_shiftRight, Nat.zero_mod, Nat.zero_or]
    · exact bn__lshift_bits_go_zeros r n

lemma bn__rshift_bits_zeros (r : ℕ) : ∀ n,
    bn__rshift_bits (List.replicate n 0) r = List.replicate n 0
  | 0 => rfl
  | 1 => by
    simp [bn__rshift_bits, Nat.zero_shiftRight]
  | n + 2 => by
    show bn__rshift_bits (0 :: 0 :: List.replicate n 0) r = _
    rw [show bn__rshift_bits (0 :: 0 :: List.replicate n 0) r
      = ((0 >>> r) ||| ((0 <<< (32 - r)) % BASE))
        :: bn__rshift_bits (0 :: List.replicate n 0) r from rfl]
    rw [show (0 : ℕ) :: List.replicate n 0 = List.replicate (n + 1) 0 from rfl,
      bn__rshift_bits_zeros r (n + 1)]
    simp [Nat.zero_shiftLeft, Nat.zero_shiftRight, Nat.zero_mod, Nat.zero_or]
    rfl

lemma bn__rshift_word_ge (a : List ℕ) {k : ℕ} (h : numWords ≤ k) :
    bn__rshift_word a k = bignum_init := by
  rw [bn__rshift_word, if_pos h]
  rfl

lemma bn__lshift_word_ge (a : List ℕ) {k : ℕ} (h : numWords ≤ k) :
    bn__lshift_word a k = bignum_init := by
  rw [bn__lshift_word, min_eq_right h, show numWords - k = 0 from by omega,
    List.take_zero, List.append_nil]
  rfl

/-- Claim C9: shifting any BigUint left or right by at least the total bit
width 8 * word_size * array_size = 1024 produces the all-zero array (the
whole-word shift already clears every limb and the residual bit shift keeps
it zero); shift amounts are naturals in this model, matching the C assert
that nbits be non-negative. -/
theorem claim9_shift_ge_width_zero (a : List ℕ) (n : ℕ) (h : 1024 ≤ n) :
    bignum_lshift a n = bignum_init ∧ bignum_rshift a n = bignum_init := by
  have hnw : numWords = 32 := rfl
  have h32 : numWords ≤ n / 32 := by omega
  have h1 : n / 32 ≠ 0 := by omega
  constructor
  · rw [bignum_lshift]
    simp only [if_pos h1, ne_eq, ite_not]
    rw [bn__lshift_word_ge a h32]
    by_cases hr : n - n / 32 * 32 = 0
    · rw [if_pos hr]
    · rw [if_neg hr, bignum_init, bn__lshift_bits_go_zeros]
  · rw [bignum_rshift]
    simp only [if_pos h1, ne_eq, ite_not]
    rw [bn__rshift_word_ge a h32]
    by_cases hr : n - n / 32 * 32 = 0
    · rw [if_pos hr]
    · rw [if_neg hr, bignum_init, bn__rshift_bits_zeros]

/-- Claim C9 witness: the claim at a = from_int 7 and n = 1030. -/
theorem claim9_witness :
    bignum_lshift (bignum_from_int 7) 1030 = bignum_init ∧
    bignum_rshift (bignum_from_int 7) 1030 = bignum_init :=
  claim9_shift_ge_width_zero _ 1030 (by norm_num)

/-- Claim C10: bignum_pow with a zero exponent takes the early branch —
the zero-initialised output compares equal to b, so the result is
bignum_inc of the zero array, the value one — for every base a, including
a zero base (0 to the 0 yields 1); the summing loop is never entered, so
the result does not depend on the loop fuel. -/
theorem claim10_pow_zero_exp (fuel : ℕ) (a b : List ℕ)
    (hlen : b.length = numWords) (hb : bnValue b = 0) :
    bignum_pow fuel a b = .ok (bignum_inc bignum_init) ∧
    bnValue (bignum_inc bignum_init) = 1 := by
  constructor
  · have hall : ∀ x ∈ b, x = 0 := bnValue_eq_zero_iff.mp hb
    have hbeq : b = bignum_init := by
      rw [bignum_init, ← hlen]
      exact List.eq_replicate_of_mem hall
    have hcmp : bignum_cmp b bignum_init = 0 := by
      rw [hbeq]
      exact bignum_cmp_zero_of_eq bignum_init_wf bignum_init_wf rfl
    rw [bignum_pow, if_pos hcmp]
  · decide

/-- Claim C10 witness: the claim at base zero and exponent zero. -/
theorem claim10_witness :
    bignum_pow 5 bignum_init bignum_init = .ok (bignum_inc bignum_init) ∧
    bnValue (bignum_inc bignum_init) = 1 :=
  claim10_pow_zero_exp 5 bignum_init bignum_init (by decide) (by decide)
